import Mathlib

/-!
# Multi2Sim compiler driver (`m2c/m2c.c`) and assembler output stream (`tools/si-as/stream.h`)

A shallow embedding of the driver of the kernel-language toolchain and of the
binary stream used by the assembler, together with the properties stated for
them.

* C strings are lists of characters (`CStr`); the terminating NUL is implicit.
* Global variables of `m2c.c` are the fields of `Clcc`.
* A call that ends the process (`exit`, `fatal`, a failed `assert`) is an
  `Outcome` carried in the error side of `Except`.
* Effects on the outside world (the `cpp` commands given to `system`, the calls
  of the stage functions of the collaborating modules) are recorded as a trace
  of `Event`s.
-/

namespace M2C

/-! ## Strings and lists of `lib/util` -/

/-- A C string: its characters up to (not including) the terminating NUL. -/
abbrev CStr := List Char

/-- The libc function `rindex(s, c)`: position of the last occurrence of `c`
in `s`, or `none` (the NULL pointer) when `c` does not occur. -/
def rindex : CStr → Char → Option Nat
  | [], _ => none
  | x :: xs, c =>
    match rindex xs c with
    | some i => some (i + 1)
    | none => if x = c then some 0 else none

/-- The libc function `snprintf(dest, size, "%s", s)`: at most `size - 1`
characters of the formatted text are stored. -/
def snprintf (size : Nat) (s : CStr) : CStr :=
  s.take (size - 1)

/-- Modelled from the spec: `str_substr(dest, dest_size, src, src_pos, src_count)`
of `lib/util/string.c`, which is not among the sources at hand. It is the helper
by which the driver "strips the suffix": the slice of `src` of `src_count`
characters from `src_pos`, cut to what the destination buffer can hold. -/
def str_substr (dest_size : Nat) (src : CStr) (src_pos src_count : Nat) : CStr :=
  (((src.drop src_pos).take src_count)).take (dest_size - 1)

/-- Modelled from the spec: `list_add` of `lib/util/list`, which is not among
the sources at hand: the artifact lists are "mutated only by appending", the new
element going to the tail. -/
def list_add (l : List CStr) (x : CStr) : List CStr :=
  l ++ [x]

/-- Modelled from the spec: `list_count` of `lib/util/list`, which is not among
the sources at hand: the number of elements of the sequence. -/
def list_count (l : List CStr) : Nat :=
  l.length

/-- Modelled from the spec: `list_get` of `lib/util/list`, which is not among
the sources at hand: the element at `index` of the sequence, or `none` (NULL)
when the index is out of range. -/
def list_get (l : List CStr) (index : Nat) : Option CStr :=
  l.get? index

/-- Modelled from the spec: `list_set` of `lib/util/list`, which is not among
the sources at hand: it "replaces" the element at `index` of the sequence. -/
def list_set (l : List CStr) (index : Nat) (x : CStr) : List CStr :=
  l.set index x

/-! ## Process outcomes -/

/-- How the process (or a function of it) stops other than by returning to its
caller normally. -/
inductive Outcome where
  /-- Function `main` returned `code`. -/
  | returned (code : Int)
  /-- A call `exit(status)`. -/
  | exit (status : Int)
  /-- A call `fatal(msg)` of `lib/util/debug`. -/
  | fatal (msg : String)
  /-- A failed `assert(expr)`: the process aborts. -/
  | assertion (expr : String)
  /-- A stage function of a collaborating module ended the process. -/
  | stage_failed
  deriving DecidableEq, Repr

/-- The exit status seen by the parent process for `exit(n)` or `return n` from
`main`: the low eight bits of `n`. -/
def visible_status (n : Int) : Int :=
  n % 256

/-- Modelled from the spec: whether the process ended successfully (exit status
zero). `fatal` of `lib/util/debug` is not among the sources at hand; by the
spec every error "yields a non-zero process exit". A failed assertion aborts
the process, and a stage that ends the process has failed. -/
def Outcome.succeeds : Outcome → Bool
  | .returned code => visible_status code == 0
  | .exit status => visible_status status == 0
  | .fatal _ => false
  | .assertion _ => false
  | .stage_failed => false

/-! ## Global state of the driver -/

/-- The global variables of `m2c.c`, and `amd_list_devices` of the AMD module
read by `main`. -/
structure Clcc where
  /-- Output file name passed with option -o; empty when not given. -/
  clcc_out_file_name : CStr
  clcc_amd_run : Bool
  clcc_preprocess_run : Bool
  clcc_cl2llvm_run : Bool
  clcc_frm2bin_run : Bool
  clcc_llvm2si_run : Bool
  clcc_si2bin_run : Bool
  clcc_opt_level : Int
  amd_list_devices : Bool
  clcc_source_file_list : List CStr
  clcc_clp_file_list : List CStr
  clcc_llvm_file_list : List CStr
  clcc_asm_file_list : List CStr
  clcc_bin_file_list : List CStr
  clcc_define_list : List CStr
  deriving DecidableEq, Repr

/-- The state left by `clcc_init`: every list created empty, every flag zero,
optimization level 1. -/
def clcc_init : Clcc where
  clcc_out_file_name := []
  clcc_amd_run := false
  clcc_preprocess_run := false
  clcc_cl2llvm_run := false
  clcc_frm2bin_run := false
  clcc_llvm2si_run := false
  clcc_si2bin_run := false
  clcc_opt_level := 1
  amd_list_devices := false
  clcc_source_file_list := []
  clcc_clp_file_list := []
  clcc_llvm_file_list := []
  clcc_asm_file_list := []
  clcc_bin_file_list := []
  clcc_define_list := []

/-- What `clcc_read_command_line` leaves in the globals: the flags and values set
by the options, and the positional arguments as the source list. -/
structure CommandLine where
  out_file_name : CStr
  amd_run : Bool
  preprocess_run : Bool
  cl2llvm_run : Bool
  frm2bin_run : Bool
  llvm2si_run : Bool
  si2bin_run : Bool
  opt_level : Int
  list_devices : Bool
  defines : List CStr
  sources : List CStr
  deriving DecidableEq, Repr

/-- The globals after `clcc_init` and `clcc_read_command_line`. -/
def clcc_read_command_line (cl : CommandLine) : Clcc :=
  { clcc_init with
    clcc_out_file_name := cl.out_file_name
    clcc_amd_run := cl.amd_run
    clcc_preprocess_run := cl.preprocess_run
    clcc_cl2llvm_run := cl.cl2llvm_run
    clcc_frm2bin_run := cl.frm2bin_run
    clcc_llvm2si_run := cl.llvm2si_run
    clcc_si2bin_run := cl.si2bin_run
    clcc_opt_level := cl.opt_level
    amd_list_devices := cl.list_devices
    clcc_define_list := cl.defines
    clcc_source_file_list := cl.sources }

/-- A command line without options: flags clear, level 1, the given sources. -/
def plain_command_line (sources : List CStr) : CommandLine where
  out_file_name := []
  amd_run := false
  preprocess_run := false
  cl2llvm_run := false
  frm2bin_run := false
  llvm2si_run := false
  si2bin_run := false
  opt_level := 1
  list_devices := false
  defines := []
  sources := sources

/-! ## Artifact names -/

/-- The prefix computed for one source in the loop of `clcc_read_source_files`:
the position of the last dot is taken unless there is none (`!dot_str`) or the
last slash lies behind it (`slash_str > dot_str`, which is false for the NULL
pointer of a name without slash), in which case the end of the string is taken;
`str_substr` then copies the characters before that position. -/
def file_name_stem (max_string_size : Nat) (file_name_ptr : CStr) : CStr :=
  let dot_str := rindex file_name_ptr '.'
  let slash_str := rindex file_name_ptr '/'
  let dot_pos : Nat :=
    match dot_str, slash_str with
    | none, _ => file_name_ptr.length
    | some d, none => d
    | some d, some s => if s > d then file_name_ptr.length else d
  str_substr max_string_size file_name_ptr 0 dot_pos

/-- One iteration of the loop of `clcc_read_source_files`: the four names of a
source are appended to the four derived lists. -/
def clcc_read_source_file (max_string_size : Nat) (g : Clcc) (file_name_ptr : CStr) : Clcc :=
  let file_name_prefix := file_name_stem max_string_size file_name_ptr
  { g with
    clcc_clp_file_list :=
      list_add g.clcc_clp_file_list
        (snprintf max_string_size ( file_name_prefix ++ ".clp".toList))
    clcc_llvm_file_list :=
      list_add g.clcc_llvm_file_list
        (snprintf max_string_size ( file_name_prefix ++ ".llvm".toList))
    clcc_asm_file_list :=
      list_add g.clcc_asm_file_list
        (snprintf max_string_size ( file_name_prefix ++ ".s".toList))
    clcc_bin_file_list :=
      list_add g.clcc_bin_file_list
        (snprintf max_string_size ( file_name_prefix ++ ".bin".toList)) }

/-- The function `clcc_read_source_files`; `max_string_size` is the constant
`MAX_STRING_SIZE` of `lib/util/string.h`. -/
def clcc_read_source_files (max_string_size : Nat) (g : Clcc) : Except Outcome Clcc :=
  if list_count g.clcc_source_file_list = 0 then
    .ok g
  else if list_count g.clcc_source_file_list > 1 ∧ g.clcc_out_file_name ≠ [] then
    .error (.fatal "option -o not allowed when multiple sources are given")
  else
    .ok (g.clcc_source_file_list.foldl (clcc_read_source_file max_string_size) g)

/-- Two runs of `clcc_read_source_files` in a row. -/
def clcc_read_source_files_twice (max_string_size : Nat) (g : Clcc) : Except Outcome Clcc :=
  match clcc_read_source_files max_string_size g with
  | .error o => .error o
  | .ok g1 => clcc_read_source_files max_string_size g1

/-- The name that one iteration of the loop of `clcc_read_source_files` appends
for a source and an extension. -/
def derived_name (max_string_size : Nat) (ext : String) (file_name_ptr : CStr) : CStr :=
  snprintf max_string_size (file_name_stem max_string_size file_name_ptr ++ ext.toList)

/-- The globals with the derived names of all sources appended to the four
derived lists. -/
def append_derived_names (max_string_size : Nat) (g : Clcc) : Clcc :=
  { g with
    clcc_clp_file_list :=
      g.clcc_clp_file_list ++ g.clcc_source_file_list.map (derived_name max_string_size ".clp")
    clcc_llvm_file_list :=
      g.clcc_llvm_file_list ++ g.clcc_source_file_list.map (derived_name max_string_size ".llvm")
    clcc_asm_file_list :=
      g.clcc_asm_file_list ++ g.clcc_source_file_list.map (derived_name max_string_size ".s")
    clcc_bin_file_list :=
      g.clcc_bin_file_list ++ g.clcc_source_file_list.map (derived_name max_string_size ".bin") }

/-- The stem of a source name in the words of the specification: the part before
the last dot when that dot comes after the last path separator (or there is no
separator), and the whole name when there is no dot or the last separator comes
after the last dot. -/
def stem (name : CStr) : CStr :=
  let ext := name.reverse.takeWhile (fun c => c ≠ '.')
  if '.' ∈ name ∧ '/' ∉ ext then name.take (name.length - (ext.length + 1)) else name

/-! ## Effects and environment -/

/-- A call of a stage function of a collaborating module, with the input and
output lists handed to it. -/
inductive StageCall where
  | amd_dump_device_list
  | amd_compile (source_file_list bin_file_list : List CStr)
  | cl2llvm_compile (source_file_list llvm_file_list : List CStr) (opt_level : Int)
  | llvm2si_compile (source_file_list output_file_list : List CStr)
  | si2bin_compile (source_file_list bin_file_list : List CStr)
  | frm2bin_compile (source_file_list bin_file_list : List CStr)
  deriving DecidableEq, Repr

/-- An effect of the driver on the outside world: a command run through
`system` (with the value `system` returned), or a call of a stage function. -/
inductive Event where
  | system (cmd : CStr) (ret : Int)
  | stage (call : StageCall)
  deriving DecidableEq, Repr

/-- What the driver does not decide itself: the buffer sizes of
`lib/util/string.h`, the value `system` returns for the `index`-th source and
its command, and whether a stage function returns to the driver (rather than
ending the process). -/
structure Env where
  MAX_STRING_SIZE : Nat
  MAX_LONG_STRING_SIZE : Nat
  system : Nat → CStr → Int
  stage_returns : StageCall → Bool

/-- The trace of effects of a computation, and whether it returned (`ok`) or
ended the process. -/
abbrev Exec := List Event × Except Outcome Unit

/-- Sequential composition: the second computation runs only when the first
returned. -/
def Exec.andThen (a b : Exec) : Exec :=
  match a.2 with
  | .ok _ => (a.1 ++ b.1, b.2)
  | .error o => (a.1, .error o)

/-- A call of a stage function of a collaborating module. -/
def call_stage (env : Env) (call : StageCall) : Exec :=
  ([.stage call], if env.stage_returns call then .ok () else .error .stage_failed)

/-! ## Output override -/

/-- The function `clcc_replace_out_file_name`: nothing to do when no output name
was given; otherwise the list is asserted to hold one element, which the output
name replaces. -/
def clcc_replace_out_file_name (clcc_out_file_name : CStr) (file_list : List CStr) :
    Except Outcome (List CStr) :=
  if clcc_out_file_name = [] then
    .ok file_list
  else if list_count file_list ≠ 1 then
    .error (.assertion "list_count(file_list) == 1")
  else
    .ok (list_set file_list 0 clcc_out_file_name)

/-! ## Preprocessor -/

/-- Modelled from the spec: `str_printf(&ptr, &size, fmt, ...)` of
`lib/util/string.c`, which is not among the sources at hand: the text is
appended to the buffer while room is left; as its caller checks ("command
exceeding size"), a text that does not fit leaves the remaining size at zero. -/
def str_printf (buf : CStr × Nat) (s : CStr) : CStr × Nat :=
  if buf.2 = 0 then buf
  else if s.length < buf.2 then (buf.1 ++ s, buf.2 - s.length)
  else (buf.1 ++ s.take (buf.2 - 1), 0)

/-- The command built by `clcc_preprocess` for one source, with the size left in
the command buffer. -/
def clcc_preprocess_cmd (max_long_string_size : Nat) (clcc_define_list : List CStr)
    (source_file clp_file : CStr) : CStr × Nat :=
  clcc_define_list.foldl (fun cmd define => str_printf cmd (" -D".toList ++ define))
    (str_printf ([], max_long_string_size)
      ("cpp ".toList ++ source_file ++ " -o ".toList ++ clp_file))

/-- The loop of `clcc_preprocess` from position `index` on, over the sources
that remain. -/
def clcc_preprocess_from (env : Env) (clcc_define_list clp_file_list : List CStr) :
    Nat → List CStr → Exec
  | _, [] => ([], .ok ())
  | index, source_file :: rest =>
    match list_get clp_file_list index with
    | none => ([], .error (.assertion "clp_file"))
    | some clp_file =>
      let cmd := clcc_preprocess_cmd env.MAX_LONG_STRING_SIZE clcc_define_list
        source_file clp_file
      if cmd.2 = 0 then
        ([], .error (.fatal "clcc_preprocess: cpp command exceeds buffer size"))
      else
        let ret := env.system index cmd.1
        if ret = -1 then
          ([.system cmd.1 ret],
            .error (.fatal "clcc_preprocess: cannot run preprocessor, command cpp not found"))
        else if ret ≠ 0 then
          ([.system cmd.1 ret], .error (.exit ret))
        else
          let r := clcc_preprocess_from env clcc_define_list clp_file_list (index + 1) rest
          (.system cmd.1 ret :: r.1, r.2)

/-- The function `clcc_preprocess`. -/
def clcc_preprocess (env : Env) (clcc_define_list source_file_list clp_file_list : List CStr) :
    Exec :=
  clcc_preprocess_from env clcc_define_list clp_file_list 0 source_file_list

/-! ## Main program -/

/-- A finished run of the program: the effects in order, how the process ended,
and the globals at that point. -/
structure Run where
  trace : List Event
  outcome : Outcome
  globals : Clcc

/-- The label `out` of `main`: when the stages returned, `main` releases its
lists and returns 0. -/
def finish (g : Clcc) (x : Exec) : Run :=
  match x.2 with
  | .ok _ => ⟨x.1, .returned 0, g⟩
  | .error o => ⟨x.1, o, g⟩

/-- The function `main`, after `clcc_init` and `clcc_read_command_line`. -/
def main (env : Env) (cl : CommandLine) : Run :=
  let g := clcc_read_command_line cl
  match clcc_read_source_files env.MAX_STRING_SIZE g with
  | .error o => ⟨[], o, g⟩
  | .ok g =>
    if g.amd_list_devices then
      finish g (call_stage env .amd_dump_device_list)
    else if g.clcc_amd_run then
      match clcc_replace_out_file_name g.clcc_out_file_name g.clcc_bin_file_list with
      | .error o => ⟨[], o, g⟩
      | .ok l =>
        let g := { g with clcc_bin_file_list := l }
        finish g
          ((clcc_preprocess env g.clcc_define_list g.clcc_source_file_list
              g.clcc_clp_file_list).andThen
            (call_stage env (.amd_compile g.clcc_clp_file_list g.clcc_bin_file_list)))
    else if g.clcc_preprocess_run then
      match clcc_replace_out_file_name g.clcc_out_file_name g.clcc_clp_file_list with
      | .error o => ⟨[], o, g⟩
      | .ok l =>
        let g := { g with clcc_clp_file_list := l }
        finish g
          (clcc_preprocess env g.clcc_define_list g.clcc_source_file_list
            g.clcc_clp_file_list)
    else if g.clcc_cl2llvm_run then
      match clcc_replace_out_file_name g.clcc_out_file_name g.clcc_llvm_file_list with
      | .error o => ⟨[], o, g⟩
      | .ok l =>
        let g := { g with clcc_llvm_file_list := l }
        finish g
          ((clcc_preprocess env g.clcc_define_list g.clcc_source_file_list
              g.clcc_clp_file_list).andThen
            (call_stage env
              (.cl2llvm_compile g.clcc_clp_file_list g.clcc_llvm_file_list g.clcc_opt_level)))
    else if g.clcc_llvm2si_run then
      match clcc_replace_out_file_name g.clcc_out_file_name g.clcc_asm_file_list with
      | .error o => ⟨[], o, g⟩
      | .ok l =>
        let g := { g with clcc_asm_file_list := l }
        finish g
          (call_stage env (.llvm2si_compile g.clcc_source_file_list g.clcc_asm_file_list))
    else if g.clcc_si2bin_run then
      match clcc_replace_out_file_name g.clcc_out_file_name g.clcc_bin_file_list with
      | .error o => ⟨[], o, g⟩
      | .ok l =>
        let g := { g with clcc_bin_file_list := l }
        finish g
          (call_stage env (.si2bin_compile g.clcc_source_file_list g.clcc_bin_file_list))
    else if g.clcc_frm2bin_run then
      match clcc_replace_out_file_name g.clcc_out_file_name g.clcc_bin_file_list with
      | .error o => ⟨[], o, g⟩
      | .ok l =>
        let g := { g with clcc_bin_file_list := l }
        finish g
          (call_stage env (.frm2bin_compile g.clcc_source_file_list g.clcc_bin_file_list))
    else
      match clcc_replace_out_file_name g.clcc_out_file_name g.clcc_bin_file_list with
      | .error o => ⟨[], o, g⟩
      | .ok l =>
        let g := { g with clcc_bin_file_list := l }
        finish g
          ((clcc_preprocess env g.clcc_define_list g.clcc_source_file_list
              g.clcc_clp_file_list).andThen
            ((call_stage env
                (.cl2llvm_compile g.clcc_clp_file_list g.clcc_llvm_file_list
                  g.clcc_opt_level)).andThen
              ((call_stage env
                  (.llvm2si_compile g.clcc_llvm_file_list g.clcc_asm_file_list)).andThen
                (call_stage env
                  (.si2bin_compile g.clcc_asm_file_list g.clcc_bin_file_list)))))

/-! ## Modes and stage sequences, in the words of the specification -/

/-- The modes among which a run dispatches: the six of the specification, and
the two further branches of `main` (listing the AMD devices, the Fermi
assembler). -/
inductive Mode where
  | list_devices
  | native_delegate
  | preprocess_only
  | front_end_only
  | backend_only
  | assembler_only
  | fermi_assembler
  | full_pipeline
  deriving DecidableEq, Repr

/-- The one mode selected by a combination of flags: the first set flag in the
order of the tests of `main`, and the full pipeline when none is set. -/
def clcc_mode (cl : CommandLine) : Mode :=
  if cl.list_devices then .list_devices
  else if cl.amd_run then .native_delegate
  else if cl.preprocess_run then .preprocess_only
  else if cl.cl2llvm_run then .front_end_only
  else if cl.llvm2si_run then .backend_only
  else if cl.si2bin_run then .assembler_only
  else if cl.frm2bin_run then .fermi_assembler
  else .full_pipeline

/-- The flags tested by `main` that select a mode are all clear. -/
def no_mode_flag (cl : CommandLine) : Prop :=
  cl.list_devices = false ∧ cl.amd_run = false ∧ cl.preprocess_run = false ∧
    cl.cl2llvm_run = false ∧ cl.llvm2si_run = false ∧ cl.si2bin_run = false ∧
    cl.frm2bin_run = false

/-- Assembler-only mode: the flag of the Southern Islands assembler is set and
no flag that `main` tests before it. -/
def assembler_only (cl : CommandLine) : Prop :=
  cl.list_devices = false ∧ cl.amd_run = false ∧ cl.preprocess_run = false ∧
    cl.cl2llvm_run = false ∧ cl.llvm2si_run = false ∧ cl.si2bin_run = true

instance (cl : CommandLine) : Decidable (no_mode_flag cl) := by
  unfold no_mode_flag
  infer_instance

instance (cl : CommandLine) : Decidable (assembler_only cl) := by
  unfold assembler_only
  infer_instance

/-- A stage of a run: the preprocessor over a batch, or one call of a stage
function of a collaborating module over a batch. -/
inductive Stage where
  | preprocess (source_file_list clp_file_list : List CStr)
  | external (call : StageCall)
  deriving DecidableEq, Repr

/-- The list whose sole element an explicit output name replaces in each mode. -/
def apply_output_override (g : Clcc) : Mode → Except Outcome Clcc
  | .list_devices => .ok g
  | .preprocess_only =>
    match clcc_replace_out_file_name g.clcc_out_file_name g.clcc_clp_file_list with
    | .error o => .error o
    | .ok l => .ok { g with clcc_clp_file_list := l }
  | .front_end_only =>
    match clcc_replace_out_file_name g.clcc_out_file_name g.clcc_llvm_file_list with
    | .error o => .error o
    | .ok l => .ok { g with clcc_llvm_file_list := l }
  | .backend_only =>
    match clcc_replace_out_file_name g.clcc_out_file_name g.clcc_asm_file_list with
    | .error o => .error o
    | .ok l => .ok { g with clcc_asm_file_list := l }
  | _ =>
    match clcc_replace_out_file_name g.clcc_out_file_name g.clcc_bin_file_list with
    | .error o => .error o
    | .ok l => .ok { g with clcc_bin_file_list := l }

/-- The stage sequence of each mode: a subset of preprocess, front-end, backend,
assembler in this order, each stage reading the list the previous one wrote. -/
def mode_stages (g : Clcc) : Mode → List Stage
  | .list_devices => [.external .amd_dump_device_list]
  | .native_delegate =>
    [.preprocess g.clcc_source_file_list g.clcc_clp_file_list,
      .external (.amd_compile g.clcc_clp_file_list g.clcc_bin_file_list)]
  | .preprocess_only => [.preprocess g.clcc_source_file_list g.clcc_clp_file_list]
  | .front_end_only =>
    [.preprocess g.clcc_source_file_list g.clcc_clp_file_list,
      .external (.cl2llvm_compile g.clcc_clp_file_list g.clcc_llvm_file_list g.clcc_opt_level)]
  | .backend_only =>
    [.external (.llvm2si_compile g.clcc_source_file_list g.clcc_asm_file_list)]
  | .assembler_only =>
    [.external (.si2bin_compile g.clcc_source_file_list g.clcc_bin_file_list)]
  | .fermi_assembler =>
    [.external (.frm2bin_compile g.clcc_source_file_list g.clcc_bin_file_list)]
  | .full_pipeline =>
    [.preprocess g.clcc_source_file_list g.clcc_clp_file_list,
      .external (.cl2llvm_compile g.clcc_clp_file_list g.clcc_llvm_file_list g.clcc_opt_level),
      .external (.llvm2si_compile g.clcc_llvm_file_list g.clcc_asm_file_list),
      .external (.si2bin_compile g.clcc_asm_file_list g.clcc_bin_file_list)]

/-- One stage, invoked once for the whole batch. -/
def run_stage (env : Env) (clcc_define_list : List CStr) : Stage → Exec
  | .preprocess source_file_list clp_file_list =>
    clcc_preprocess env clcc_define_list source_file_list clp_file_list
  | .external call => call_stage env call

/-- The stages in order; a stage that fails ends the run, and no later stage is
invoked. -/
def run_stages (env : Env) (clcc_define_list : List CStr) : List Stage → Exec
  | [] => ([], .ok ())
  | st :: rest =>
    (run_stage env clcc_define_list st).andThen (run_stages env clcc_define_list rest)

/-- A run of one mode: the artifact names are derived, the output override is
applied to the list of the mode, and the stage sequence of the mode is run. -/
def clcc_run (env : Env) (cl : CommandLine) (m : Mode) : Run :=
  let g := clcc_read_command_line cl
  match clcc_read_source_files env.MAX_STRING_SIZE g with
  | .error o => ⟨[], o, g⟩
  | .ok g =>
    match apply_output_override g m with
    | .error o => ⟨[], o, g⟩
    | .ok g => finish g (run_stages env g.clcc_define_list (mode_stages g m))

/-- The `cpp` command that `clcc_preprocess` builds for a source, whose
preprocessed file carries the derived name. -/
def cpp_command (env : Env) (cl : CommandLine) (source_file : CStr) : CStr × Nat :=
  clcc_preprocess_cmd env.MAX_LONG_STRING_SIZE cl.defines source_file
    (derived_name env.MAX_STRING_SIZE ".clp" source_file)

/-- How the process ends when `system` returned the non-zero value `ret` in
`clcc_preprocess`: through `fatal` for -1, through `exit(ret)` otherwise. -/
def cpp_failure (ret : Int) : Outcome :=
  if ret = -1 then
    .fatal "clcc_preprocess: cannot run preprocessor, command cpp not found"
  else .exit ret

/-- A computation in which the preprocessor comes first and ends the process
when it fails: whatever precedes a `system` event in the trace are `system`
events that returned zero (so the event stands at the position of its source),
and a `system` event that returned non-zero is the last effect, the process
ending by `cpp_failure`. -/
def HaltsAtFailure (env : Env) (first : Nat) (r : Exec) : Prop :=
  ∀ pre c ret post, r.1 = pre ++ Event.system c ret :: post →
    (∀ e ∈ pre, ∃ c0, e = Event.system c0 0) ∧
    ret = env.system (first + pre.length) c ∧
    (ret ≠ 0 → post = [] ∧ r.2 = .error (cpp_failure ret))

/-- An environment with the buffer sizes 200 and 1024 in which every stage
function returns, and `system` returns `status` for the source at position
`index` and zero for the others. -/
def cpp_fails_at (index : Nat) (status : Int) : Env where
  MAX_STRING_SIZE := 200
  MAX_LONG_STRING_SIZE := 1024
  system := fun i _ => if i = index then status else 0
  stage_returns := fun _ => true

/-- An environment with the buffer sizes 200 and 1024 in which `system` returns
zero and every stage function returns. -/
def all_succeed : Env where
  MAX_STRING_SIZE := 200
  MAX_LONG_STRING_SIZE := 1024
  system := fun _ _ => 0
  stage_returns := fun _ => true

/-! ## The binary stream of the assembler (`tools/si-as/stream.h`)

Only the header of the stream is among the sources: the record `si_stream_t`
with the output file and the offset, and the declarations of
`si_stream_create`, `si_stream_add_inst`, `si_stream_get_offset`,
`si_stream_resolve_task` and `si_stream_close`. The bodies, the instruction
record `si_inst_t` and the task record `si_task_t` are modelled from the
specification of the binary stream resolver. -/

/-- Modelled from the spec: the addressing mode of a resolution task, "absolute
offset vs. offset relative to the referencing instruction". -/
inductive AddressingMode where
  | absolute
  | relative
  deriving DecidableEq, Repr

/-- Modelled from the spec: the reference of an instruction to a symbol: the
symbol name, the addressing mode, and "the byte range inside `encoded_bytes`
that must later carry the address" (its position in the instruction and its
width in bytes). -/
structure Reference where
  symbol : String
  mode : AddressingMode
  field_pos : Nat
  field_width : Nat
  deriving DecidableEq, Repr

/-- Modelled from the spec: the record `si_inst_t`, declared outside the sources
at hand: the encoded bytes of an instruction and its reference, if it has one. -/
structure si_inst_t where
  bytes : List Nat
  reference : Option Reference
  deriving DecidableEq, Repr

/-- The field of a reference lies inside the encoded bytes of its instruction. -/
def si_inst_t.well_formed (inst : si_inst_t) : Prop :=
  ∀ r, inst.reference = some r → r.field_pos + r.field_width ≤ inst.bytes.length

/-- Modelled from the spec: the record `si_task_t`, declared outside the sources
at hand: a resolution task "holds the offset in the buffer where the field
lives, the size/shape of the field to patch, the symbol name being referenced,
and the addressing mode"; the offset of the referencing instruction is kept for
the relative mode. -/
structure si_task_t where
  inst_offset : Nat
  field_offset : Nat
  field_width : Nat
  symbol : String
  mode : AddressingMode
  deriving DecidableEq, Repr

/-- The record `si_stream_t` of `stream.h`: the bytes written to `out_file` and
the `offset` (a count of bytes; the range of `long` is not modelled); with them,
modelled from the spec, what the binary stream owns besides: the "mapping from
symbol name to its defining offset" and the "ordered collection of pending
resolution tasks". -/
structure si_stream_t where
  out_file : List Nat
  offset : Nat
  symbols : List (String × Nat)
  tasks : List si_task_t
  deriving DecidableEq, Repr

/-- Modelled from the spec: the errors of the binary stream. -/
inductive StreamError where
  | DuplicateSymbolError (name : String)
  | UnresolvedSymbolError (name : String)
  deriving DecidableEq, Repr

/-- The offset recorded for a symbol, if it has been defined. -/
def lookup_symbol : List (String × Nat) → String → Option Nat
  | [], _ => none
  | (n, off) :: rest, name => if n = name then some off else lookup_symbol rest name

/-- Modelled from the spec: the patch value, "(symbol offset) for absolute mode,
or (symbol offset − referencing-instruction offset) for relative mode". -/
def patch_value (mode : AddressingMode) (symbol_offset inst_offset : Nat) : Int :=
  match mode with
  | .absolute => (symbol_offset : Int)
  | .relative => (symbol_offset : Int) - (inst_offset : Int)

/-- The bytes that a field of the given width holds for a value: the first
`width` bytes of the encoding `enc width value` (zero where the encoding is
shorter). The layout `enc` of a value in a field is left to the instruction
encoder by the specification, and is a parameter here. -/
def field_bytes (enc : Nat → Int → List Nat) (width : Nat) (value : Int) : List Nat :=
  (List.range width).map (fun i => (enc width value).getD i 0)

/-- Little-endian two's complement, one layout an encoder may choose. -/
def little_endian (width : Nat) (value : Int) : List Nat :=
  (List.range width).map (fun i => ((value / 256 ^ i) % 256).toNat)

/-- Writing `bytes` into a buffer from position `pos` on. -/
def write_bytes (buf : List Nat) (pos : Nat) (bytes : List Nat) : List Nat :=
  buf.take pos ++ bytes ++ buf.drop (pos + bytes.length)

/-- The `width` bytes of a buffer from position `pos` on. -/
def read_field (buf : List Nat) (pos width : Nat) : List Nat :=
  (buf.drop pos).take width

/-- Modelled from the spec: the patch of one task into a buffer, once its symbol
is known: "write that value into the recorded byte range using the field's
declared width". -/
def patch_task (enc : Nat → Int → List Nat) (buf : List Nat) (task : si_task_t)
    (symbol_offset : Nat) : List Nat :=
  write_bytes buf task.field_offset
    (field_bytes enc task.field_width (patch_value task.mode symbol_offset task.inst_offset))

/-- Modelled from the spec: `si_stream_create`, the operation `open`: "offset
initialized to 0", nothing written, no symbol, no task. -/
def si_stream_create : si_stream_t where
  out_file := []
  offset := 0
  symbols := []
  tasks := []

/-- Modelled from the spec: `si_stream_get_offset`, the operation
`current_offset`: "the number of bytes written so far". -/
def si_stream_get_offset (stream : si_stream_t) : Nat :=
  stream.offset

/-- Modelled from the spec: `si_stream_resolve_task`, the resolution of one task
whose symbol has become known: the field is patched in the output. -/
def si_stream_resolve_task (enc : Nat → Int → List Nat) (stream : si_stream_t)
    (task : si_task_t) (symbol_offset : Nat) : si_stream_t :=
  { stream with out_file := patch_task enc stream.out_file task symbol_offset }

/-- The task of a reference of the instruction emitted at `inst_offset`. -/
def task_of (inst_offset : Nat) (r : Reference) : si_task_t where
  inst_offset := inst_offset
  field_offset := inst_offset + r.field_pos
  field_width := r.field_width
  symbol := r.symbol
  mode := r.mode

/-- Modelled from the spec: `si_stream_add_inst`, the operation
`emit_instruction`: "appends `encoded_bytes` at the current offset and advances
the offset by its length"; a reference to a symbol not yet defined "registers a
resolution task", and a reference to a symbol defined before is resolved
"immediately at reference time with no task ever created". -/
def si_stream_add_inst (enc : Nat → Int → List Nat) (stream : si_stream_t)
    (inst : si_inst_t) : si_stream_t :=
  let appended : si_stream_t :=
    { stream with
      out_file := stream.out_file ++ inst.bytes
      offset := stream.offset + inst.bytes.length }
  match inst.reference with
  | none => appended
  | some r =>
    match lookup_symbol stream.symbols r.symbol with
    | some symbol_offset =>
      si_stream_resolve_task enc appended (task_of stream.offset r) symbol_offset
    | none => { appended with tasks := appended.tasks ++ [task_of stream.offset r] }

/-- Modelled from the spec: the operation `define_symbol`: "fails with
`DuplicateSymbolError` if `name` was already defined"; otherwise the offset is
recorded, and the pending tasks that reference the name "are resolved
immediately", "in the order the tasks were created", and removed. -/
def define_symbol (enc : Nat → Int → List Nat) (stream : si_stream_t) (name : String)
    (offset : Nat) : Except StreamError si_stream_t :=
  match lookup_symbol stream.symbols name with
  | some _ => .error (.DuplicateSymbolError name)
  | none =>
    let resolved :=
      (stream.tasks.filter (fun t => decide (t.symbol = name))).foldl
        (fun s t => si_stream_resolve_task enc s t offset) stream
    .ok { resolved with
      symbols := (name, offset) :: stream.symbols
      tasks := stream.tasks.filter (fun t => !decide (t.symbol = name)) }

/-- Modelled from the spec: `si_stream_close`, the operation `finalize`:
"requires the pending-task collection to be empty; fails with
`UnresolvedSymbolError(name)` naming the first unresolved symbol otherwise";
on success the completed buffer is returned. -/
def si_stream_close (stream : si_stream_t) : Except StreamError (List Nat) :=
  match stream.tasks with
  | [] => .ok stream.out_file
  | task :: _ => .error (.UnresolvedSymbolError task.symbol)

/-- A request of the assembler to the stream. -/
inductive Request where
  | emit_instruction (inst : si_inst_t)
  | define_symbol (name : String) (offset : Nat)
  deriving DecidableEq, Repr

/-- One request served by the stream. -/
def si_stream_request (enc : Nat → Int → List Nat) (stream : si_stream_t) :
    Request → Except StreamError si_stream_t
  | .emit_instruction inst => .ok (si_stream_add_inst enc stream inst)
  | .define_symbol name offset => define_symbol enc stream name offset

/-- A sequence of requests served in order; a failed request is "unrecoverable
for that compilation unit". -/
def si_stream_run (enc : Nat → Int → List Nat) :
    List Request → si_stream_t → Except StreamError si_stream_t
  | [], stream => .ok stream
  | req :: rest, stream =>
    match si_stream_request enc stream req with
    | .error e => .error e
    | .ok next => si_stream_run enc rest next

/-- A compilation unit: a stream is opened, the requests are served, and the
stream is finalized. -/
def assemble (enc : Nat → Int → List Nat) (reqs : List Request) :
    Except StreamError (List Nat) :=
  match si_stream_run enc reqs si_stream_create with
  | .error e => .error e
  | .ok stream => si_stream_close stream

/-- The number of bytes of the instructions of a sequence of requests. -/
def emitted_size : List Request → Nat
  | [] => 0
  | .emit_instruction inst :: rest => inst.bytes.length + emitted_size rest
  | .define_symbol _ _ :: rest => emitted_size rest

/-- The names defined by a sequence of requests, in order. -/
def defined_names : List Request → List String
  | [] => []
  | .emit_instruction _ :: rest => defined_names rest
  | .define_symbol name _ :: rest => name :: defined_names rest

/-- The symbol table after a sequence of requests: the latest definition first. -/
def symbols_of : List Request → List (String × Nat)
  | [] => []
  | .emit_instruction _ :: rest => symbols_of rest
  | .define_symbol name offset :: rest => symbols_of rest ++ [(name, offset)]

/-- Every instruction of the sequence is well formed. -/
def well_formed_requests (reqs : List Request) : Prop :=
  ∀ inst, Request.emit_instruction inst ∈ reqs → inst.well_formed

/-- Every symbol referenced by an instruction of the sequence is defined by a
request of the sequence. -/
def references_defined (reqs : List Request) : Prop :=
  ∀ inst r, Request.emit_instruction inst ∈ reqs → inst.reference = some r →
    r.symbol ∈ defined_names reqs

instance (inst : si_inst_t) : Decidable inst.well_formed :=
  match h : inst.reference with
  | none => isTrue (fun r hr => by rw [h] at hr; cases hr)
  | some r0 =>
    if hle : r0.field_pos + r0.field_width ≤ inst.bytes.length then
      isTrue (fun r hr => by rw [h] at hr; cases hr; exact hle)
    else isFalse (fun hw => hle (hw r0 h))

instance (reqs : List Request) : Decidable (well_formed_requests reqs) :=
  decidable_of_iff
    (∀ req ∈ reqs, ∀ inst ∈ (match req with
      | .emit_instruction inst => [inst]
      | .define_symbol _ _ => []), inst.well_formed)
    ⟨fun h inst hm => h _ hm inst (by simp),
      fun h req hm inst hi => by
        cases req with
        | emit_instruction i0 =>
          simp only [List.mem_singleton] at hi
          subst hi
          exact h _ hm
        | define_symbol n off => simp at hi⟩

instance (reqs : List Request) : Decidable (references_defined reqs) :=
  decidable_of_iff
    (∀ req ∈ reqs, ∀ inst ∈ (match req with
      | .emit_instruction inst => [inst]
      | .define_symbol _ _ => []), ∀ r ∈ inst.reference, r.symbol ∈ defined_names reqs)
    ⟨fun h inst r hm hr => h _ hm inst (by simp) r (by simp [hr]),
      fun h req hm inst hi r hr => by
        cases req with
        | emit_instruction i0 =>
          simp only [List.mem_singleton] at hi
          subst hi
          exact h _ r hm (by simpa using hr)
        | define_symbol n off => simp at hi⟩

/-- An instruction of four bytes whose first four bytes are a field in relative
mode for the label "L". -/
def inst_A : si_inst_t where
  bytes := [0xAA, 0xAA, 0xAA, 0xAA]
  reference := some ⟨"L", .relative, 0, 4⟩

/-- An instruction of four bytes without reference. -/
def inst_B : si_inst_t where
  bytes := [0xBB, 0xBB, 0xBB, 0xBB]
  reference := none

/-- Instruction A referencing the label L, the definition of L at offset 4, and
instruction B. -/
def unit_forward_reference : List Request :=
  [.emit_instruction inst_A, .define_symbol "L" 4, .emit_instruction inst_B]

/-- The same unit with a second definition of the label L at its end. -/
def unit_duplicate_definition : List Request :=
  [.emit_instruction inst_A, .define_symbol "L" 4, .emit_instruction inst_B,
    .define_symbol "L" 8]

/-- An instruction of two bytes that are a field in absolute mode for the label
"L". -/
def inst_C : si_inst_t where
  bytes := [0xCC, 0xCC]
  reference := some ⟨"L", .absolute, 0, 2⟩

/-- A unit in which one reference is deferred (A, before the definition of L),
one instruction has no reference (B) and one reference is resolved at once (C,
after the definition of L). -/
def unit_mixed : List Request :=
  [.emit_instruction inst_A, .define_symbol "L" 4, .emit_instruction inst_B,
    .emit_instruction inst_C]

/-- The sizes of the instructions of a sequence of requests, in order. -/
def instruction_sizes : List Request → List Nat
  | [] => []
  | .emit_instruction inst :: rest => inst.bytes.length :: instruction_sizes rest
  | .define_symbol _ _ :: rest => instruction_sizes rest

/-- The bytes of an instruction emitted at `inst_offset` as they stand in the
output when the symbols `symbols` are known: patched when its symbol is known. -/
def inst_image (enc : Nat → Int → List Nat) (symbols : List (String × Nat))
    (inst_offset : Nat) (inst : si_inst_t) : List Nat :=
  match inst.reference with
  | none => inst.bytes
  | some r =>
    match lookup_symbol symbols r.symbol with
    | some symbol_offset =>
      write_bytes inst.bytes r.field_pos
        (field_bytes enc r.field_width (patch_value r.mode symbol_offset inst_offset))
    | none => inst.bytes

/-- The output after a sequence of requests served from offset `start`, when
the symbols `symbols` are known. -/
def image (enc : Nat → Int → List Nat) (symbols : List (String × Nat)) :
    Nat → List Request → List Nat
  | _, [] => []
  | start, .emit_instruction inst :: rest =>
    inst_image enc symbols start inst ++ image enc symbols (start + inst.bytes.length) rest
  | start, .define_symbol _ _ :: rest => image enc symbols start rest

/-- The task pending for an instruction emitted at `inst_offset` when the symbols
`symbols` are known: one when it references a symbol that is not known. -/
def inst_pending (symbols : List (String × Nat)) (inst_offset : Nat) (inst : si_inst_t) :
    List si_task_t :=
  match inst.reference with
  | none => []
  | some r =>
    match lookup_symbol symbols r.symbol with
    | some _ => []
    | none => [task_of inst_offset r]

/-- The tasks pending after a sequence of requests served from offset `start`,
in the order of their creation, when the symbols `symbols` are known. -/
def pending (symbols : List (String × Nat)) : Nat → List Request → List si_task_t
  | _, [] => []
  | start, .emit_instruction inst :: rest =>
    inst_pending symbols start inst ++ pending symbols (start + inst.bytes.length) rest
  | start, .define_symbol _ _ :: rest => pending symbols start rest

/-- The stream after a sequence of requests, in closed form. -/
def stream_after (enc : Nat → Int → List Nat) (reqs : List Request) : si_stream_t where
  out_file := image enc (symbols_of reqs) 0 reqs
  offset := emitted_size reqs
  symbols := symbols_of reqs
  tasks := pending (symbols_of reqs) 0 reqs

/-! ## Lemmas on strings -/

theorem rindex_eq_none {s : CStr} {c : Char} : rindex s c = none ↔ c ∉ s := by
  induction s with
  | nil => simp [rindex]
  | cons x xs ih =>
    simp only [rindex, List.mem_cons, not_or]
    cases h : rindex xs c with
    | some i =>
      have : ¬ (c ∉ xs) := fun hc => by simp [ih.mpr hc] at h
      simp [this]
    | none =>
      have hc := ih.mp h
      by_cases hx : x = c
      · simp [hx]
      · simp [hx, hc, Ne.symm hx]

theorem rindex_lt {s : CStr} {c : Char} {i : Nat} (h : rindex s c = some i) :
    i < s.length := by
  induction s generalizing i with
  | nil => simp [rindex] at h
  | cons x xs ih =>
    simp only [rindex] at h
    cases hr : rindex xs c with
    | some j =>
      rw [hr] at h
      have := ih hr
      simp at h
      simp
      omega
    | none =>
      rw [hr] at h
      by_cases hx : x = c
      · simp [hx] at h
        simp [← h]
      · simp [hx] at h

theorem rindex_append (a b : CStr) (c : Char) :
    rindex (a ++ b) c =
      match rindex b c with
      | some i => some (a.length + i)
      | none => rindex a c := by
  induction a with
  | nil => cases h : rindex b c <;> simp [h, rindex]
  | cons x xs ih =>
    cases h : rindex b c with
    | some i =>
      have ih1 : rindex (xs ++ b) c = some (xs.length + i) := by simpa [h] using ih
      show (match rindex (xs ++ b) c with
        | some i => some (i + 1)
        | none => if x = c then some 0 else none) = some ((x :: xs).length + i)
      rw [ih1]
      simp only [List.length_cons, Option.some.injEq]
      omega
    | none =>
      have ih1 : rindex (xs ++ b) c = rindex xs c := by simpa [h] using ih
      show (match rindex (xs ++ b) c with
        | some i => some (i + 1)
        | none => if x = c then some 0 else none) = rindex (x :: xs) c
      rw [ih1]
      rfl

theorem rindex_cons_of_not_mem {e : CStr} {c : Char} (x : Char) (h : c ∉ e) :
    rindex (x :: e) c = if x = c then some 0 else none := by
  simp [rindex, rindex_eq_none.mpr h]

/-- Every string that holds a character splits at its last occurrence. -/
theorem exists_last_split {s : CStr} {c : Char} (h : c ∈ s) :
    ∃ p e, s = p ++ c :: e ∧ c ∉ e := by
  induction s with
  | nil => simp at h
  | cons x xs ih =>
    by_cases hc : c ∈ xs
    · obtain ⟨p, e, hs, he⟩ := ih hc
      exact ⟨x :: p, e, by simp [hs], he⟩
    · have hx : c = x := by
        rcases List.mem_cons.mp h with h1 | h1
        · exact h1
        · exact absurd h1 hc
      exact ⟨[], xs, by simp [hx], hc⟩

/-- The characters behind the last occurrence of the separating character are
what `takeWhile` finds from the end. -/
theorem takeWhile_reverse_split (p e : CStr) (c : Char) (he : c ∉ e) :
    (p ++ c :: e).reverse.takeWhile (fun x => x ≠ c) = e.reverse := by
  have h1 : ∀ a ∈ e.reverse, (fun x => decide (x ≠ c)) a = true := by
    intro a ha
    have : a ≠ c := fun hac => he (hac ▸ List.mem_reverse.mp ha)
    simpa using this
  simp only [List.reverse_append, List.reverse_cons, List.append_assoc]
  rw [List.takeWhile_append_of_pos h1]
  simp

/-- The position chosen in the loop of `clcc_read_source_files` cuts the name at
its stem. -/
theorem file_name_stem_eq (M : Nat) (s : CStr) :
    file_name_stem M s = (stem s).take (M - 1) := by
  by_cases hdot : '.' ∈ s
  · obtain ⟨p, e, hs, he⟩ := exists_last_split hdot
    have hd : rindex s '.' = some p.length := by
      rw [hs, rindex_append, rindex_cons_of_not_mem _ he]
      simp
    have hext : s.reverse.takeWhile (fun x => x ≠ '.') = e.reverse := by
      rw [hs]
      exact takeWhile_reverse_split p e '.' he
    have hlen : s.length = p.length + (e.length + 1) := by
      simp [hs]
    have htake : s.take p.length = p := by
      simp [hs]
    by_cases hsl : '/' ∈ e
    · -- the last slash lies behind the last dot: the whole name is kept
      obtain ⟨j, hj⟩ := Option.ne_none_iff_exists'.mp (fun h => (rindex_eq_none.mp h) hsl)
      have hs2 : rindex s '/' = some (p.length + (j + 1)) := by
        rw [hs, rindex_append]
        simp [rindex, hj]
      have hst : stem s = s := by
        simp only [stem]
        rw [hext, if_neg]
        simp [hsl]
      simp only [file_name_stem, hd, hs2, hst, str_substr, List.drop_zero]
      rw [if_pos (by omega), List.take_length]
    · have hs2 : rindex s '/' = rindex p '/' := by
        rw [hs, rindex_append, rindex_cons_of_not_mem _ hsl]
        simp
      have hst : stem s = p := by
        simp only [stem]
        rw [hext, if_pos ⟨hdot, by simpa using hsl⟩, List.length_reverse, hlen,
          Nat.add_sub_cancel, htake]
      cases hr : rindex p '/' with
      | none =>
        simp only [file_name_stem, hd, hs2, hr, hst, str_substr, List.drop_zero, htake]
      | some k =>
        have hk := rindex_lt hr
        simp only [file_name_stem, hd, hs2, hr, hst, str_substr, List.drop_zero]
        rw [if_neg (by omega), htake]
  · have hd : rindex s '.' = none := rindex_eq_none.mpr hdot
    have hst : stem s = s := by
      simp [stem, hdot]
    simp only [file_name_stem, hd, hst, str_substr, List.drop_zero, List.take_length]

/-! ## Derivation of the artifact names -/

/-- The loop of `clcc_read_source_files` appends, to each derived list, the
derived names of the sources in order, and touches nothing else. -/
theorem foldl_read_source_file (M : Nat) (l : List CStr) (g : Clcc) :
    l.foldl (clcc_read_source_file M) g =
      { g with
        clcc_clp_file_list := g.clcc_clp_file_list ++ l.map (derived_name M ".clp")
        clcc_llvm_file_list := g.clcc_llvm_file_list ++ l.map (derived_name M ".llvm")
        clcc_asm_file_list := g.clcc_asm_file_list ++ l.map (derived_name M ".s")
        clcc_bin_file_list := g.clcc_bin_file_list ++ l.map (derived_name M ".bin") } := by
  induction l generalizing g with
  | nil => simp
  | cons x xs ih =>
    rw [List.foldl_cons, ih]
    simp [clcc_read_source_file, list_add, derived_name]

/-- Unless an output name comes with several sources, `clcc_read_source_files`
returns, having appended the derived names of all sources. -/
theorem read_source_files_ok (M : Nat) (g : Clcc)
    (h : g.clcc_out_file_name = [] ∨ g.clcc_source_file_list.length ≤ 1) :
    clcc_read_source_files M g = .ok (append_derived_names M g) := by
  unfold clcc_read_source_files list_count append_derived_names
  by_cases h0 : g.clcc_source_file_list.length = 0
  · have hnil : g.clcc_source_file_list = [] := List.length_eq_zero.mp h0
    rw [if_pos h0]
    cases g
    simp_all
  · rw [if_neg h0, if_neg, foldl_read_source_file]
    rintro ⟨h1, h2⟩
    rcases h with h | h
    · exact h2 h
    · omega

/-- A derived name that fits its buffer is the stem followed by the extension. -/
theorem derived_name_eq (M : Nat) (ext : String) (s : CStr)
    (hfit : (stem s ++ ext.toList).length < M) :
    derived_name M ext s = stem s ++ ext.toList := by
  have h1 : (stem s).length ≤ M - 1 := by
    simp only [List.length_append] at hfit
    omega
  have h2 : (stem s ++ ext.toList).length ≤ M - 1 := by omega
  rw [derived_name, file_name_stem_eq, List.take_of_length_le h1, snprintf,
    List.take_of_length_le h2]

/-- C1 (amended): for every list of source names whose stem plus extension fits
the name buffers, and unless an output name is given together with several
sources, `clcc_read_source_files` started with empty derived lists returns with
four lists as long as the source list, whose elements are in order the stems of
the sources followed by ".clp", ".llvm", ".s" and ".bin". -/
theorem clcc_read_source_files_names (M : Nat) (cl : CommandLine)
    (hout : cl.out_file_name = [] ∨ cl.sources.length ≤ 1)
    (hfit : ∀ s ∈ cl.sources, (stem s ++ ".llvm".toList).length < M) :
    ∃ g, clcc_read_source_files M (clcc_read_command_line cl) = .ok g ∧
      g.clcc_source_file_list = cl.sources ∧
      g.clcc_clp_file_list = cl.sources.map (fun s => stem s ++ ".clp".toList) ∧
      g.clcc_llvm_file_list = cl.sources.map (fun s => stem s ++ ".llvm".toList) ∧
      g.clcc_asm_file_list = cl.sources.map (fun s => stem s ++ ".s".toList) ∧
      g.clcc_bin_file_list = cl.sources.map (fun s => stem s ++ ".bin".toList) ∧
      g.clcc_clp_file_list.length = cl.sources.length ∧
      g.clcc_llvm_file_list.length = cl.sources.length ∧
      g.clcc_asm_file_list.length = cl.sources.length ∧
      g.clcc_bin_file_list.length = cl.sources.length := by
  have hname : ∀ ext : String, ext.toList.length ≤ 5 →
      cl.sources.map (derived_name M ext) = cl.sources.map (fun s => stem s ++ ext.toList) := by
    intro ext hext
    apply List.map_congr_left
    intro s hs
    apply derived_name_eq
    have := hfit s hs
    simp only [List.length_append] at this ⊢
    have h5 : ".llvm".toList.length = 5 := by decide
    omega
  refine ⟨_, read_source_files_ok M (clcc_read_command_line cl) hout, rfl, ?_, ?_, ?_, ?_,
    ?_, ?_, ?_, ?_⟩
  · simpa [append_derived_names, clcc_read_command_line, clcc_init]
      using hname ".clp" (by decide)
  · simpa [append_derived_names, clcc_read_command_line, clcc_init]
      using hname ".llvm" (by decide)
  · simpa [append_derived_names, clcc_read_command_line, clcc_init]
      using hname ".s" (by decide)
  · simpa [append_derived_names, clcc_read_command_line, clcc_init]
      using hname ".bin" (by decide)
  all_goals simp [append_derived_names, clcc_read_command_line, clcc_init]

/-- C1 (witness): two sources, one with a dot in a directory name only. -/
theorem clcc_read_source_files_names_witness :
    ((plain_command_line ["k.v2/vec.add.cl".toList, "dir.x/kernel".toList]).out_file_name = [] ∨
      (plain_command_line ["k.v2/vec.add.cl".toList, "dir.x/kernel".toList]).sources.length ≤ 1) ∧
    ∃ g, clcc_read_source_files 200
        (clcc_read_command_line
          (plain_command_line ["k.v2/vec.add.cl".toList, "dir.x/kernel".toList])) = .ok g ∧
      g.clcc_source_file_list = ["k.v2/vec.add.cl".toList, "dir.x/kernel".toList] ∧
      g.clcc_clp_file_list = ["k.v2/vec.add.clp".toList, "dir.x/kernel.clp".toList] ∧
      g.clcc_llvm_file_list = ["k.v2/vec.add.llvm".toList, "dir.x/kernel.llvm".toList] ∧
      g.clcc_asm_file_list = ["k.v2/vec.add.s".toList, "dir.x/kernel.s".toList] ∧
      g.clcc_bin_file_list = ["k.v2/vec.add.bin".toList, "dir.x/kernel.bin".toList] ∧
      g.clcc_clp_file_list.length = 2 ∧
      g.clcc_llvm_file_list.length = 2 ∧
      g.clcc_asm_file_list.length = 2 ∧
      g.clcc_bin_file_list.length = 2 :=
  ⟨by decide,
    clcc_read_source_files_names 200
      (plain_command_line ["k.v2/vec.add.cl".toList, "dir.x/kernel".toList])
      (by decide) (by decide)⟩

/-- C1 (counterexample): two source names that fit the buffers, with an output
name given: `clcc_read_source_files` ends the process through `fatal` and
produces no list. -/
theorem clcc_read_source_files_names_counterexample :
    (∀ s ∈ ["a.cl".toList, "b.cl".toList], (stem s ++ ".llvm".toList).length < 200) ∧
    clcc_read_source_files 200
        (clcc_read_command_line
          { plain_command_line ["a.cl".toList, "b.cl".toList] with
            out_file_name := "x".toList }) =
      .error (.fatal "option -o not allowed when multiple sources are given") :=
  ⟨by decide, by rfl⟩

/-- C2 (amended): a second run of `clcc_read_source_files` on the unchanged
source list (no output name together with several sources) appends every
derived name once more: after two runs each of the four lists is the list left
by a single run followed by itself, so two runs leave what one run leaves only
when there is no source. -/
theorem clcc_read_source_files_twice_appends (M : Nat) (cl : CommandLine)
    (hout : cl.out_file_name = [] ∨ cl.sources.length ≤ 1) :
    ∃ g1 g2, clcc_read_source_files M (clcc_read_command_line cl) = .ok g1 ∧
      clcc_read_source_files_twice M (clcc_read_command_line cl) = .ok g2 ∧
      g2.clcc_source_file_list = cl.sources ∧
      g2.clcc_clp_file_list = g1.clcc_clp_file_list ++ g1.clcc_clp_file_list ∧
      g2.clcc_llvm_file_list = g1.clcc_llvm_file_list ++ g1.clcc_llvm_file_list ∧
      g2.clcc_asm_file_list = g1.clcc_asm_file_list ++ g1.clcc_asm_file_list ∧
      g2.clcc_bin_file_list = g1.clcc_bin_file_list ++ g1.clcc_bin_file_list ∧
      (g2 = g1 ↔ cl.sources = []) := by
  have h1 := read_source_files_ok M (clcc_read_command_line cl) hout
  have h2 := read_source_files_ok M (append_derived_names M (clcc_read_command_line cl)) hout
  refine ⟨append_derived_names M (clcc_read_command_line cl),
    append_derived_names M (append_derived_names M (clcc_read_command_line cl)),
    h1, ?_, ?_, ?_, ?_, ?_, ?_, ?_⟩
  · simp only [clcc_read_source_files_twice, h1]
    exact h2
  · rfl
  · simp [append_derived_names, clcc_read_command_line, clcc_init]
  · simp [append_derived_names, clcc_read_command_line, clcc_init]
  · simp [append_derived_names, clcc_read_command_line, clcc_init]
  · simp [append_derived_names, clcc_read_command_line, clcc_init]
  · constructor
    · intro h
      have hc := congrArg (fun g => g.clcc_clp_file_list.length) h
      simp [append_derived_names, clcc_read_command_line, clcc_init] at hc
      exact hc
    · intro h
      simp [append_derived_names, clcc_read_command_line, clcc_init, h]

/-- C2 (witness): one source; the second run doubles each derived list. -/
theorem clcc_read_source_files_twice_appends_witness :
    ((plain_command_line ["a.cl".toList]).out_file_name = [] ∨
      (plain_command_line ["a.cl".toList]).sources.length ≤ 1) ∧
    ∃ g1 g2, clcc_read_source_files 200
        (clcc_read_command_line (plain_command_line ["a.cl".toList])) = .ok g1 ∧
      clcc_read_source_files_twice 200
        (clcc_read_command_line (plain_command_line ["a.cl".toList])) = .ok g2 ∧
      g2.clcc_source_file_list = ["a.cl".toList] ∧
      g2.clcc_clp_file_list = g1.clcc_clp_file_list ++ g1.clcc_clp_file_list ∧
      g2.clcc_llvm_file_list = g1.clcc_llvm_file_list ++ g1.clcc_llvm_file_list ∧
      g2.clcc_asm_file_list = g1.clcc_asm_file_list ++ g1.clcc_asm_file_list ∧
      g2.clcc_bin_file_list = g1.clcc_bin_file_list ++ g1.clcc_bin_file_list ∧
      (g2 = g1 ↔ ["a.cl".toList] = []) :=
  ⟨by decide,
    clcc_read_source_files_twice_appends 200 (plain_command_line ["a.cl".toList]) (by decide)⟩

/-- C2 (counterexample): for the single source "a.cl", one run leaves one name
in each derived list and two runs leave two, so the second run does change the
lists. -/
theorem clcc_read_source_files_twice_counterexample :
    (∃ g1 g2,
      clcc_read_source_files 200
        (clcc_read_command_line (plain_command_line ["a.cl".toList])) = .ok g1 ∧
      clcc_read_source_files_twice 200
        (clcc_read_command_line (plain_command_line ["a.cl".toList])) = .ok g2 ∧
      g1.clcc_clp_file_list = ["a.clp".toList] ∧
      g2.clcc_clp_file_list = ["a.clp".toList, "a.clp".toList] ∧
      g1.clcc_llvm_file_list = ["a.llvm".toList] ∧
      g2.clcc_llvm_file_list = ["a.llvm".toList, "a.llvm".toList] ∧
      g1.clcc_asm_file_list = ["a.s".toList] ∧
      g2.clcc_asm_file_list = ["a.s".toList, "a.s".toList] ∧
      g1.clcc_bin_file_list = ["a.bin".toList] ∧
      g2.clcc_bin_file_list = ["a.bin".toList, "a.bin".toList]) ∧
    clcc_read_source_files_twice 200
        (clcc_read_command_line (plain_command_line ["a.cl".toList])) ≠
      clcc_read_source_files 200
        (clcc_read_command_line (plain_command_line ["a.cl".toList])) := by
  refine ⟨⟨_, _, rfl, rfl, rfl, rfl, rfl, rfl, rfl, rfl, rfl, rfl⟩, ?_⟩
  intro h
  have hc := congrArg
    (fun r => match r with
      | Except.ok g => g.clcc_clp_file_list.length
      | Except.error _ => 0) h
  revert hc
  decide

/-! ## The dispatch of `main` -/

theorem andThen_ok_nil (a : Exec) : a.andThen ([], .ok ()) = a := by
  obtain ⟨t, r⟩ := a
  cases r <;> simp [Exec.andThen]

/-- When `clcc_read_source_files` returns, it has appended the derived names. -/
theorem read_source_files_eq {M : Nat} {g0 g : Clcc}
    (h : clcc_read_source_files M g0 = .ok g) : g = append_derived_names M g0 := by
  by_cases hc : g0.clcc_out_file_name = [] ∨ g0.clcc_source_file_list.length ≤ 1
  · rw [read_source_files_ok M g0 hc] at h
    exact (Except.ok.inj h).symm
  · exfalso
    have h1 : ¬ g0.clcc_out_file_name = [] := fun h1 => hc (Or.inl h1)
    have h2 : 1 < g0.clcc_source_file_list.length := by
      by_contra h2
      exact hc (Or.inr (by omega))
    have h0 : ¬ g0.clcc_source_file_list.length = 0 := by omega
    simp [clcc_read_source_files, list_count, h1, h2, h0] at h

/-- Function `main` runs the mode selected by the flags. -/
theorem main_eq_clcc_run (env : Env) (cl : CommandLine) :
    main env cl = clcc_run env cl (clcc_mode cl) := by
  have e0 : clcc_init.clcc_clp_file_list = [] := rfl
  have e1 : clcc_init.clcc_llvm_file_list = [] := rfl
  have e2 : clcc_init.clcc_asm_file_list = [] := rfl
  have e3 : clcc_init.clcc_bin_file_list = [] := rfl
  simp only [main, clcc_run]
  cases hr : clcc_read_source_files env.MAX_STRING_SIZE (clcc_read_command_line cl) with
  | error o => rfl
  | ok g =>
    have hg := read_source_files_eq hr
    subst hg
    by_cases h1 : cl.list_devices = true
    · simp [append_derived_names, clcc_read_command_line, clcc_mode, h1, apply_output_override,
        mode_stages, run_stages, run_stage, andThen_ok_nil]
    by_cases h2 : cl.amd_run = true
    · simp only [append_derived_names, clcc_read_command_line, clcc_mode, e0, e1, e2, e3,
        List.nil_append, Bool.false_eq_true, if_false, if_true, h1, h2,
        apply_output_override, mode_stages, run_stages, run_stage, andThen_ok_nil]
      generalize clcc_replace_out_file_name _ _ = r
      cases r <;> rfl
    by_cases h3 : cl.preprocess_run = true
    · simp only [append_derived_names, clcc_read_command_line, clcc_mode, e0, e1, e2, e3,
        List.nil_append, Bool.false_eq_true, if_false, if_true, h1, h2, h3,
        apply_output_override, mode_stages, run_stages, run_stage, andThen_ok_nil]
      generalize clcc_replace_out_file_name _ _ = r
      cases r <;> rfl
    by_cases h4 : cl.cl2llvm_run = true
    · simp only [append_derived_names, clcc_read_command_line, clcc_mode, e0, e1, e2, e3,
        List.nil_append, Bool.false_eq_true, if_false, if_true, h1, h2, h3, h4,
        apply_output_override, mode_stages, run_stages, run_stage, andThen_ok_nil]
      generalize clcc_replace_out_file_name _ _ = r
      cases r <;> rfl
    by_cases h5 : cl.llvm2si_run = true
    · simp only [append_derived_names, clcc_read_command_line, clcc_mode, e0, e1, e2, e3,
        List.nil_append, Bool.false_eq_true, if_false, if_true, h1, h2, h3, h4, h5,
        apply_output_override, mode_stages, run_stages, run_stage, andThen_ok_nil]
      generalize clcc_replace_out_file_name _ _ = r
      cases r <;> rfl
    by_cases h6 : cl.si2bin_run = true
    · simp only [append_derived_names, clcc_read_command_line, clcc_mode, e0, e1, e2, e3,
        List.nil_append, Bool.false_eq_true, if_false, if_true, h1, h2, h3, h4, h5, h6,
        apply_output_override, mode_stages, run_stages, run_stage, andThen_ok_nil]
      generalize clcc_replace_out_file_name _ _ = r
      cases r <;> rfl
    by_cases h7 : cl.frm2bin_run = true
    · simp only [append_derived_names, clcc_read_command_line, clcc_mode, e0, e1, e2, e3,
        List.nil_append, Bool.false_eq_true, if_false, if_true, h1, h2, h3, h4, h5, h6,
        h7, apply_output_override, mode_stages, run_stages, run_stage, andThen_ok_nil]
      generalize clcc_replace_out_file_name _ _ = r
      cases r <;> rfl
    · simp only [append_derived_names, clcc_read_command_line, clcc_mode, e0, e1, e2, e3,
        List.nil_append, Bool.false_eq_true, if_false, if_true, h1, h2, h3, h4, h5, h6,
        h7, apply_output_override, mode_stages, run_stages, run_stage, andThen_ok_nil]
      generalize clcc_replace_out_file_name _ _ = r
      cases r <;> rfl

/-! ## The preprocessor loop -/

theorem cons_eq_append_cons {α : Type} {e0 e : α} {t pre post : List α}
    (h : e0 :: t = pre ++ e :: post) :
    (pre = [] ∧ e = e0 ∧ post = t) ∨ ∃ pre1, pre = e0 :: pre1 ∧ t = pre1 ++ e :: post := by
  cases pre with
  | nil =>
    simp only [List.nil_append, List.cons.injEq] at h
    exact Or.inl ⟨rfl, h.1.symm, h.2.symm⟩
  | cons x xs =>
    simp only [List.cons_append, List.cons.injEq] at h
    exact Or.inr ⟨xs, by rw [h.1], h.2⟩

theorem singleton_eq_append_cons {α : Type} {e0 e : α} {pre post : List α}
    (h : [e0] = pre ++ e :: post) : pre = [] ∧ e = e0 ∧ post = [] := by
  rcases cons_eq_append_cons h with h1 | ⟨pre1, _, h2⟩
  · exact h1
  · simp at h2

/-- When every command fits and `system` returns zero, the loop of
`clcc_preprocess` runs one command per source, in order, and returns. -/
theorem preprocess_from_ok (env : Env) (defs : List CStr) (f : CStr → CStr)
    (hsys : ∀ i c, env.system i c = 0) (rest : List CStr) :
    ∀ pre : List CStr,
      (∀ s ∈ rest, (clcc_preprocess_cmd env.MAX_LONG_STRING_SIZE defs s (f s)).2 ≠ 0) →
      clcc_preprocess_from env defs (pre ++ rest.map f) pre.length rest =
        (rest.map (fun s =>
            Event.system (clcc_preprocess_cmd env.MAX_LONG_STRING_SIZE defs s (f s)).1 0),
          .ok ()) := by
  induction rest with
  | nil => intro pre _; rfl
  | cons s rest ih =>
    intro pre hfit
    have hget : list_get (pre ++ (s :: rest).map f) pre.length = some (f s) := by
      simp only [list_get, List.get?_eq_getElem?, List.map_cons]
      rw [List.getElem?_append_right (Nat.le_refl _)]
      simp
    have hs := hfit s (List.mem_cons_self _ _)
    have ih1 := ih (pre ++ [f s]) (fun x hx => hfit x (List.mem_cons_of_mem _ hx))
    have hclp : (pre ++ [f s]) ++ rest.map f = pre ++ (s :: rest).map f := by simp
    have hlen : (pre ++ [f s]).length = pre.length + 1 := by simp
    rw [hlen, hclp] at ih1
    rw [clcc_preprocess_from, hget]
    simp only [hs, hsys, ih1, if_false, List.map_cons]
    simp only [List.map_cons] at ih1
    simp [ih1]

/-- The loop of `clcc_preprocess` stops at the first command for which `system`
returns non-zero. -/
theorem preprocess_from_halts (env : Env) (defs clp : List CStr) (rest : List CStr) :
    ∀ i, HaltsAtFailure env i (clcc_preprocess_from env defs clp i rest) := by
  induction rest with
  | nil =>
    intro i pre c ret post h
    simp [clcc_preprocess_from] at h
  | cons s rest ih =>
    intro i pre c ret post h
    rw [clcc_preprocess_from] at h ⊢
    cases hget : list_get clp i with
    | none => simp [hget] at h
    | some clp_file =>
      simp only [hget] at h ⊢
      by_cases hsize : (clcc_preprocess_cmd env.MAX_LONG_STRING_SIZE defs s clp_file).2 = 0
      · simp [hsize] at h
      · simp only [hsize, if_false] at h ⊢
        by_cases hm : env.system i
            (clcc_preprocess_cmd env.MAX_LONG_STRING_SIZE defs s clp_file).1 = -1
        · rw [if_pos hm] at h ⊢
          obtain ⟨hpre, he, hpost⟩ := singleton_eq_append_cons h
          simp only [Event.system.injEq] at he
          refine ⟨by simp [hpre], by simp [hpre, he.1, he.2], fun _ => ⟨hpost, ?_⟩⟩
          simp [cpp_failure, he.2, hm]
        · rw [if_neg hm] at h ⊢
          by_cases hz : env.system i
              (clcc_preprocess_cmd env.MAX_LONG_STRING_SIZE defs s clp_file).1 = 0
          · rw [if_neg (by simpa using hz)] at h ⊢
            rcases cons_eq_append_cons h with ⟨hpre, he, _⟩ | ⟨pre1, hpre, hrest⟩
            · simp only [Event.system.injEq] at he
              refine ⟨by simp [hpre], by simp [hpre, he.1, he.2], fun hne => ?_⟩
              exact absurd (he.2.trans hz) hne
            · obtain ⟨h1, h2, h3⟩ := ih (i + 1) pre1 c ret post hrest
              refine ⟨?_, ?_, h3⟩
              · intro e he
                rw [hpre] at he
                rcases List.mem_cons.mp he with he | he
                · exact ⟨_, by rw [he, hz]⟩
                · exact h1 e he
              · rw [h2, hpre]
                congr 1
                simp only [List.length_cons]
                omega
          · rw [if_pos (by simpa using hz)] at h ⊢
            obtain ⟨hpre, he, hpost⟩ := singleton_eq_append_cons h
            simp only [Event.system.injEq] at he
            refine ⟨by simp [hpre], by simp [hpre, he.1, he.2], fun _ => ⟨hpost, ?_⟩⟩
            simp [cpp_failure, he.2, hm]

/-! ## Failure of the preprocessor within a run -/

theorem call_stage_no_system (env : Env) (call : StageCall) :
    ∀ c ret, Event.system c ret ∉ (call_stage env call).1 := by
  intro c ret h
  simp [call_stage] at h

theorem andThen_no_system (a b : Exec)
    (ha : ∀ c ret, Event.system c ret ∉ a.1) (hb : ∀ c ret, Event.system c ret ∉ b.1) :
    ∀ c ret, Event.system c ret ∉ (a.andThen b).1 := by
  intro c ret h
  obtain ⟨t, r⟩ := a
  cases r with
  | error o => exact ha c ret (by simpa [Exec.andThen] using h)
  | ok u =>
    simp only [Exec.andThen, List.mem_append] at h
    rcases h with h | h
    · exact ha c ret h
    · exact hb c ret h

theorem halts_of_no_system (env : Env) (r : Exec)
    (h : ∀ c ret, Event.system c ret ∉ r.1) : HaltsAtFailure env 0 r := by
  intro pre c ret post heq
  exact absurd (by rw [heq]; simp) (h c ret)

/-- Stages that follow the preprocessor are not reached when it fails. -/
theorem andThen_halts (env : Env) (a b : Exec) (ha : HaltsAtFailure env 0 a)
    (hb : ∀ c ret, Event.system c ret ∉ b.1) : HaltsAtFailure env 0 (a.andThen b) := by
  intro pre c ret post heq
  obtain ⟨t, r⟩ := a
  cases r with
  | error o =>
    simp only [Exec.andThen] at heq ⊢
    exact ha pre c ret post heq
  | ok u =>
    simp only [Exec.andThen] at heq ⊢
    rcases List.append_eq_append_iff.mp heq with ⟨a1, _, h2⟩ | ⟨c1, h1, h2⟩
    · exact absurd (by rw [h2]; simp) (hb c ret)
    · cases c1 with
      | nil =>
        exact absurd (by rw [← List.nil_append b.1, ← h2]; simp) (hb c ret)
      | cons x xs =>
        simp only [List.cons_append, List.cons.injEq] at h2
        have ht : t = pre ++ Event.system c ret :: xs := by rw [h1, h2.1]
        obtain ⟨k1, k2, k3⟩ := ha pre c ret xs ht
        refine ⟨k1, k2, fun hne => ?_⟩
        have := (k3 hne).2
        simp at this

/-- In every mode, the stage sequence stops at a failure of the preprocessor. -/
theorem run_stages_halts (env : Env) (g : Clcc) (m : Mode) :
    HaltsAtFailure env 0 (run_stages env g.clcc_define_list (mode_stages g m)) := by
  have hpre : ∀ clp, HaltsAtFailure env 0
      (clcc_preprocess env g.clcc_define_list g.clcc_source_file_list clp) :=
    fun clp => preprocess_from_halts env _ clp _ 0
  have hnil : ∀ c ret, Event.system c ret ∉ (([], .ok ()) : Exec).1 := by
    intro c ret h
    simp at h
  cases m <;> simp only [mode_stages, run_stages, run_stage]
  · exact halts_of_no_system env _ (andThen_no_system _ _ (call_stage_no_system env _) hnil)
  · exact andThen_halts env _ _ (hpre _)
      (andThen_no_system _ _ (call_stage_no_system env _) hnil)
  · exact andThen_halts env _ _ (hpre _) hnil
  · exact andThen_halts env _ _ (hpre _)
      (andThen_no_system _ _ (call_stage_no_system env _) hnil)
  · exact halts_of_no_system env _ (andThen_no_system _ _ (call_stage_no_system env _) hnil)
  · exact halts_of_no_system env _ (andThen_no_system _ _ (call_stage_no_system env _) hnil)
  · exact halts_of_no_system env _ (andThen_no_system _ _ (call_stage_no_system env _) hnil)
  · exact andThen_halts env _ _ (hpre _)
      (andThen_no_system _ _ (call_stage_no_system env _)
        (andThen_no_system _ _ (call_stage_no_system env _)
          (andThen_no_system _ _ (call_stage_no_system env _) hnil)))

theorem finish_trace (g : Clcc) (x : Exec) : (finish g x).trace = x.1 := by
  obtain ⟨t, r⟩ := x
  cases r <;> rfl

theorem finish_outcome_error (g : Clcc) (x : Exec) (o : Outcome) (h : x.2 = .error o) :
    (finish g x).outcome = o := by
  obtain ⟨t, r⟩ := x
  simp only at h
  subst h
  rfl

/-- C8: in every mode and for every behaviour of the environment, a `system`
event of the run that returned a non-zero status is the last effect of the run:
it stands at the position of its source (only successful runs of the
preprocessor precede it), no later source is preprocessed, no stage function is
invoked, and the process ends there (through `exit` with that status, or
`fatal` for -1). -/
theorem preprocess_failure_stops_run (env : Env) (cl : CommandLine)
    (pre post : List Event) (c : CStr) (ret : Int)
    (htrace : (main env cl).trace = pre ++ Event.system c ret :: post)
    (hret : ret ≠ 0) :
    post = [] ∧
    (∀ e ∈ pre, ∃ c0, e = Event.system c0 0) ∧
    ret = env.system pre.length c ∧
    (∀ call, Event.stage call ∉ (main env cl).trace) ∧
    (main env cl).outcome = cpp_failure ret := by
  rw [main_eq_clcc_run] at htrace ⊢
  simp only [clcc_run] at htrace ⊢
  cases hr : clcc_read_source_files env.MAX_STRING_SIZE (clcc_read_command_line cl) with
  | error o => simp [hr] at htrace
  | ok g =>
    simp only [hr] at htrace ⊢
    cases ho : apply_output_override g (clcc_mode cl) with
    | error o => simp [ho] at htrace
    | ok g1 =>
      simp only [ho] at htrace ⊢
      rw [finish_trace] at htrace ⊢
      obtain ⟨h1, h2, h3⟩ := run_stages_halts env g1 (clcc_mode cl) pre c ret post htrace
      obtain ⟨h4, h5⟩ := h3 hret
      refine ⟨h4, h1, by simpa using h2, ?_, finish_outcome_error _ _ _ h5⟩
      intro call hc
      rw [htrace, h4] at hc
      rcases List.mem_append.mp hc with hc | hc
      · obtain ⟨c0, h0⟩ := h1 _ hc
        cases h0
      · simp at hc

/-- C8 (witness): three sources, the preprocessor failing for the second one:
the run consists of the two `cpp` commands and ends by `exit`. -/
theorem preprocess_failure_stops_run_witness :
    (main (cpp_fails_at 1 256)
        (plain_command_line ["a.cl".toList, "b.cl".toList, "c.cl".toList])).trace =
      [Event.system "cpp a.cl -o a.clp".toList 0] ++
        Event.system "cpp b.cl -o b.clp".toList 256 :: [] ∧
    (256 : Int) ≠ 0 ∧
    (([] : List Event) = [] ∧
      (∀ e ∈ [Event.system "cpp a.cl -o a.clp".toList 0], ∃ c0, e = Event.system c0 0) ∧
      (256 : Int) = (cpp_fails_at 1 256).system
        [Event.system "cpp a.cl -o a.clp".toList 0].length "cpp b.cl -o b.clp".toList ∧
      (∀ call, Event.stage call ∉ (main (cpp_fails_at 1 256)
        (plain_command_line ["a.cl".toList, "b.cl".toList, "c.cl".toList])).trace) ∧
      (main (cpp_fails_at 1 256)
        (plain_command_line ["a.cl".toList, "b.cl".toList, "c.cl".toList])).outcome =
        cpp_failure 256) :=
  ⟨by rfl, by decide,
    preprocess_failure_stops_run (cpp_fails_at 1 256)
      (plain_command_line ["a.cl".toList, "b.cl".toList, "c.cl".toList])
      [Event.system "cpp a.cl -o a.clp".toList 0] [] "cpp b.cl -o b.clp".toList 256
      (by rfl) (by decide)⟩

/-! ## Output override and whole runs -/

/-- With one element in the list, a given output name replaces it. -/
theorem replace_out_file_name_single (out x : CStr) (hout : out ≠ []) :
    clcc_replace_out_file_name out [x] = .ok [out] := by
  simp [clcc_replace_out_file_name, hout, list_count, list_set]

/-- Without an output name the list is left as it is. -/
theorem replace_out_file_name_none (l : List CStr) :
    clcc_replace_out_file_name [] l = .ok l := by
  simp [clcc_replace_out_file_name]

/-- The override applied to the derived names of the sources, when it is legal:
no output name, or exactly one source. -/
theorem replace_out_file_name_derived (out : CStr) (f : CStr → CStr) (sources : List CStr)
    (h : out = [] ∨ sources.length = 1) :
    clcc_replace_out_file_name out (sources.map f) =
      .ok (if out = [] then sources.map f else [out]) := by
  by_cases ho : out = []
  · simp [ho, replace_out_file_name_none]
  · have h1 : sources.length = 1 := h.resolve_left ho
    obtain ⟨x, hx⟩ := List.length_eq_one.mp h1
    simp [hx, ho, replace_out_file_name_single]

/-- C3: for every non-empty output name and every list of exactly one element,
`clcc_replace_out_file_name` yields a list of length one whose sole element is
the output name; and for every single source, a run in assembler-only mode with
an output name (such as "out.bin") calls the assembler once, with the source
list as input and the list holding just the output name as output. -/
theorem clcc_replace_out_file_name_sole :
    (∀ out x : CStr, out ≠ [] →
      ∃ l, clcc_replace_out_file_name out [x] = .ok l ∧ l.length = 1 ∧ l = [out]) ∧
    (∀ (env : Env) (cl : CommandLine) (source : CStr),
      cl.sources = [source] → cl.out_file_name ≠ [] → assembler_only cl →
      (main env cl).trace = [Event.stage (.si2bin_compile [source] [cl.out_file_name])]) := by
  refine ⟨fun out x hout => ⟨[out], replace_out_file_name_single out x hout, rfl, rfl⟩, ?_⟩
  intro env cl source hs hout ⟨h1, h2, h3, h4, h5, h6⟩
  have hmode : clcc_mode cl = .assembler_only := by
    simp [clcc_mode, h1, h2, h3, h4, h5, h6]
  have hr := read_source_files_ok env.MAX_STRING_SIZE (clcc_read_command_line cl)
    (Or.inr (by simp [clcc_read_command_line, hs]))
  rw [main_eq_clcc_run, hmode]
  simp only [clcc_run, hr, apply_output_override]
  have hbin : (append_derived_names env.MAX_STRING_SIZE
      (clcc_read_command_line cl)).clcc_bin_file_list =
      [derived_name env.MAX_STRING_SIZE ".bin" source] := by
    simp [append_derived_names, clcc_read_command_line, clcc_init, hs]
  have hout1 : (append_derived_names env.MAX_STRING_SIZE
      (clcc_read_command_line cl)).clcc_out_file_name = cl.out_file_name := rfl
  rw [hbin, hout1, replace_out_file_name_single _ _ hout]
  simp only [finish_trace, mode_stages, run_stages, run_stage, andThen_ok_nil, call_stage]
  simp [append_derived_names, clcc_read_command_line, hs]

/-- C3 (witness): the output name "out.bin" and the single source "k.s". -/
theorem clcc_replace_out_file_name_sole_witness :
    (∃ l, clcc_replace_out_file_name "out.bin".toList ["k.bin".toList] = .ok l ∧
      l.length = 1 ∧ l = ["out.bin".toList]) ∧
    (main all_succeed
        { plain_command_line ["k.s".toList] with
          out_file_name := "out.bin".toList, si2bin_run := true }).trace =
      [Event.stage (.si2bin_compile ["k.s".toList] ["out.bin".toList])] :=
  ⟨clcc_replace_out_file_name_sole.1 "out.bin".toList "k.bin".toList (by decide),
    clcc_replace_out_file_name_sole.2 all_succeed
      { plain_command_line ["k.s".toList] with
        out_file_name := "out.bin".toList, si2bin_run := true }
      "k.s".toList rfl (by decide) (by decide)⟩

/-- C4: in every mode and with every other option, a run in which an output name
is given together with two or more sources ends in `clcc_read_source_files`
through `fatal`: no effect took place (no stage function was invoked), the
derived lists are still empty, and the process did not end successfully. -/
theorem output_name_with_several_sources_is_fatal (env : Env) (cl : CommandLine)
    (hout : cl.out_file_name ≠ []) (hsrc : 2 ≤ cl.sources.length) :
    (main env cl).trace = [] ∧
    (main env cl).outcome =
      .fatal "option -o not allowed when multiple sources are given" ∧
    (main env cl).outcome.succeeds = false ∧
    (main env cl).globals.clcc_clp_file_list = [] ∧
    (main env cl).globals.clcc_llvm_file_list = [] ∧
    (main env cl).globals.clcc_asm_file_list = [] ∧
    (main env cl).globals.clcc_bin_file_list = [] := by
  have hr : clcc_read_source_files env.MAX_STRING_SIZE (clcc_read_command_line cl) =
      .error (.fatal "option -o not allowed when multiple sources are given") := by
    have h0 : ¬ cl.sources.length = 0 := by omega
    have h1 : 1 < cl.sources.length := by omega
    simp [clcc_read_source_files, list_count, clcc_read_command_line, h0, h1, hout]
  simp only [main, hr]
  simp [Outcome.succeeds, clcc_read_command_line, clcc_init]

/-- C4 (witness): two sources with an output name, in assembler-only mode. -/
theorem output_name_with_several_sources_is_fatal_witness :
    ({ plain_command_line ["a.s".toList, "b.s".toList] with
        out_file_name := "out.bin".toList, si2bin_run := true } : CommandLine).out_file_name
      ≠ [] ∧
    (main all_succeed
        { plain_command_line ["a.s".toList, "b.s".toList] with
          out_file_name := "out.bin".toList, si2bin_run := true }).trace = [] ∧
    (main all_succeed
        { plain_command_line ["a.s".toList, "b.s".toList] with
          out_file_name := "out.bin".toList, si2bin_run := true }).outcome =
      .fatal "option -o not allowed when multiple sources are given" :=
  ⟨by decide,
    (output_name_with_several_sources_is_fatal all_succeed
      { plain_command_line ["a.s".toList, "b.s".toList] with
        out_file_name := "out.bin".toList, si2bin_run := true }
      (by decide) (by decide)).1,
    (output_name_with_several_sources_is_fatal all_succeed
      { plain_command_line ["a.s".toList, "b.s".toList] with
        out_file_name := "out.bin".toList, si2bin_run := true }
      (by decide) (by decide)).2.1⟩

/-- C5 (the code at the failing input): with no source and an output name, in
every mode but the listing of devices, whatever the other options and the
environment, `main` fails the assertion of `clcc_replace_out_file_name` before
any effect, and the process does not end with exit status 0. -/
theorem no_source_with_output_name_aborts (env : Env)
    (amd_run preprocess_run cl2llvm_run frm2bin_run llvm2si_run si2bin_run : Bool)
    (opt_level : Int) (defines : List CStr) :
    (main env
      { out_file_name := "out.bin".toList, amd_run := amd_run,
        preprocess_run := preprocess_run, cl2llvm_run := cl2llvm_run,
        frm2bin_run := frm2bin_run, llvm2si_run := llvm2si_run, si2bin_run := si2bin_run,
        opt_level := opt_level, list_devices := false, defines := defines,
        sources := [] }).outcome = .assertion "list_count(file_list) == 1" ∧
    (main env
      { out_file_name := "out.bin".toList, amd_run := amd_run,
        preprocess_run := preprocess_run, cl2llvm_run := cl2llvm_run,
        frm2bin_run := frm2bin_run, llvm2si_run := llvm2si_run, si2bin_run := si2bin_run,
        opt_level := opt_level, list_devices := false, defines := defines,
        sources := [] }).outcome.succeeds = false := by
  cases amd_run <;> cases preprocess_run <;> cases cl2llvm_run <;> cases frm2bin_run <;>
    cases llvm2si_run <;> cases si2bin_run <;> exact ⟨rfl, rfl⟩

/-- C7 (the code at the failing input): the preprocessor of the single source
"a.cl" fails and `system` returns 256 (the value for a child that exited with
status 1): `clcc_preprocess` calls `exit(256)`, whose visible status is 0, so
the process ends successfully although no later stage has run. -/
theorem preprocessor_status_is_lost :
    (main (cpp_fails_at 0 256) (plain_command_line ["a.cl".toList])).trace =
      [Event.system "cpp a.cl -o a.clp".toList 256] ∧
    (main (cpp_fails_at 0 256) (plain_command_line ["a.cl".toList])).outcome = .exit 256 ∧
    visible_status 256 = 0 ∧
    (main (cpp_fails_at 0 256) (plain_command_line ["a.cl".toList])).outcome.succeeds = true :=
  ⟨by rfl, by rfl, by decide, by rfl⟩

/-- The whole run of the full pipeline when nothing fails. -/
theorem full_pipeline_run (env : Env) (cl : CommandLine) (hmode : no_mode_flag cl)
    (hout : cl.out_file_name = [] ∨ cl.sources.length = 1)
    (hsys : ∀ i c, env.system i c = 0)
    (hfit : ∀ s ∈ cl.sources, (cpp_command env cl s).2 ≠ 0)
    (hstage : ∀ call, env.stage_returns call = true) :
    (main env cl).trace =
      cl.sources.map (fun s => Event.system (cpp_command env cl s).1 0) ++
        [Event.stage (.cl2llvm_compile
            (cl.sources.map (derived_name env.MAX_STRING_SIZE ".clp"))
            (cl.sources.map (derived_name env.MAX_STRING_SIZE ".llvm")) cl.opt_level),
          Event.stage (.llvm2si_compile
            (cl.sources.map (derived_name env.MAX_STRING_SIZE ".llvm"))
            (cl.sources.map (derived_name env.MAX_STRING_SIZE ".s"))),
          Event.stage (.si2bin_compile
            (cl.sources.map (derived_name env.MAX_STRING_SIZE ".s"))
            (if cl.out_file_name = [] then
              cl.sources.map (derived_name env.MAX_STRING_SIZE ".bin")
            else [cl.out_file_name]))] ∧
    (main env cl).outcome = .returned 0 := by
  obtain ⟨h1, h2, h3, h4, h5, h6, h7⟩ := hmode
  have hm : clcc_mode cl = .full_pipeline := by
    simp [clcc_mode, h1, h2, h3, h4, h5, h6, h7]
  have hr := read_source_files_ok env.MAX_STRING_SIZE (clcc_read_command_line cl)
    (hout.imp id (fun h => by simp [clcc_read_command_line, h]))
  have hpre := preprocess_from_ok env cl.defines (derived_name env.MAX_STRING_SIZE ".clp")
    hsys cl.sources [] hfit
  rw [main_eq_clcc_run, hm]
  simp only [clcc_run, hr, apply_output_override]
  have hbin : (append_derived_names env.MAX_STRING_SIZE
      (clcc_read_command_line cl)).clcc_bin_file_list =
      cl.sources.map (derived_name env.MAX_STRING_SIZE ".bin") := by
    simp [append_derived_names, clcc_read_command_line, clcc_init]
  have hout1 : (append_derived_names env.MAX_STRING_SIZE
      (clcc_read_command_line cl)).clcc_out_file_name = cl.out_file_name := rfl
  rw [hbin, hout1, replace_out_file_name_derived _ _ _ hout]
  simp only [mode_stages, run_stages, run_stage, andThen_ok_nil, call_stage, hstage,
    clcc_preprocess, if_true]
  simp only [append_derived_names, clcc_read_command_line, clcc_init, List.nil_append]
  simp only [List.nil_append, List.length_nil] at hpre
  rw [hpre]
  simp [finish, Exec.andThen, cpp_command]

/-- C6: for every combination of the mode flags, `main` is the run of the one
mode that the flags select (the first set flag in the order of the tests of
`main`); when no mode flag is set this mode is the full pipeline, and in a run
in which nothing fails its effects are, in this order: the preprocessor over
the sources (one `cpp` command per source, writing the ".clp" names), one call
of the front-end from the ".clp" list to the ".llvm" list, one call of the
backend from the ".llvm" list to the ".s" list, and one call of the assembler
from the ".s" list to the binary list; then `main` returns 0. -/
theorem main_runs_one_mode (env : Env) (cl : CommandLine) :
    main env cl = clcc_run env cl (clcc_mode cl) ∧
    (no_mode_flag cl → clcc_mode cl = .full_pipeline) ∧
    (no_mode_flag cl →
      (cl.out_file_name = [] ∨ cl.sources.length = 1) →
      (∀ i c, env.system i c = 0) →
      (∀ s ∈ cl.sources, (cpp_command env cl s).2 ≠ 0) →
      (∀ call, env.stage_returns call = true) →
      (main env cl).trace =
        cl.sources.map (fun s => Event.system (cpp_command env cl s).1 0) ++
          [Event.stage (.cl2llvm_compile
              (cl.sources.map (derived_name env.MAX_STRING_SIZE ".clp"))
              (cl.sources.map (derived_name env.MAX_STRING_SIZE ".llvm")) cl.opt_level),
            Event.stage (.llvm2si_compile
              (cl.sources.map (derived_name env.MAX_STRING_SIZE ".llvm"))
              (cl.sources.map (derived_name env.MAX_STRING_SIZE ".s"))),
            Event.stage (.si2bin_compile
              (cl.sources.map (derived_name env.MAX_STRING_SIZE ".s"))
              (if cl.out_file_name = [] then
                cl.sources.map (derived_name env.MAX_STRING_SIZE ".bin")
              else [cl.out_file_name]))] ∧
      (main env cl).outcome = .returned 0) := by
  refine ⟨main_eq_clcc_run env cl, ?_, full_pipeline_run env cl⟩
  rintro ⟨h1, h2, h3, h4, h5, h6, h7⟩
  simp [clcc_mode, h1, h2, h3, h4, h5, h6, h7]

/-- C6 (witness): two sources and one macro definition, no mode flag. -/
theorem main_runs_one_mode_witness :
    no_mode_flag { plain_command_line ["a.cl".toList, "d/b.cl".toList] with
      defines := ["N=4".toList] } ∧
    (main all_succeed
        { plain_command_line ["a.cl".toList, "d/b.cl".toList] with
          defines := ["N=4".toList] }).trace =
      [Event.system "cpp a.cl -o a.clp -DN=4".toList 0,
        Event.system "cpp d/b.cl -o d/b.clp -DN=4".toList 0,
        Event.stage (.cl2llvm_compile ["a.clp".toList, "d/b.clp".toList]
          ["a.llvm".toList, "d/b.llvm".toList] 1),
        Event.stage (.llvm2si_compile ["a.llvm".toList, "d/b.llvm".toList]
          ["a.s".toList, "d/b.s".toList]),
        Event.stage (.si2bin_compile ["a.s".toList, "d/b.s".toList]
          ["a.bin".toList, "d/b.bin".toList])] ∧
    (main all_succeed
        { plain_command_line ["a.cl".toList, "d/b.cl".toList] with
          defines := ["N=4".toList] }).outcome = .returned 0 :=
  ⟨by decide,
    (main_runs_one_mode all_succeed
      { plain_command_line ["a.cl".toList, "d/b.cl".toList] with
        defines := ["N=4".toList] }).2.2
      (by decide) (by decide) (fun _ _ => rfl) (by decide) (fun _ => rfl)⟩

/-! ## Buffers -/

theorem length_field_bytes (enc : Nat → Int → List Nat) (width : Nat) (value : Int) :
    (field_bytes enc width value).length = width := by
  simp [field_bytes]

theorem length_write_bytes (buf : List Nat) (pos : Nat) (bytes : List Nat)
    (h : pos + bytes.length ≤ buf.length) :
    (write_bytes buf pos bytes).length = buf.length := by
  simp only [write_bytes, List.length_append, List.length_take, List.length_drop]
  omega

theorem write_bytes_append_left (a b : List Nat) (pos : Nat) (bytes : List Nat)
    (h : pos + bytes.length ≤ a.length) :
    write_bytes (a ++ b) pos bytes = write_bytes a pos bytes ++ b := by
  simp only [write_bytes]
  rw [List.take_append_of_le_length (by omega), List.drop_append_of_le_length h]
  simp

theorem write_bytes_append_right (a b : List Nat) (pos : Nat) (bytes : List Nat) :
    write_bytes (a ++ b) (a.length + pos) bytes = a ++ write_bytes b pos bytes := by
  simp only [write_bytes]
  rw [List.take_append, Nat.add_assoc, List.drop_append]
  simp

theorem read_field_write_bytes (buf : List Nat) (pos : Nat) (bytes : List Nat)
    (h : pos ≤ buf.length) :
    read_field (write_bytes buf pos bytes) pos bytes.length = bytes := by
  simp only [read_field, write_bytes, List.append_assoc]
  have hlen : (buf.take pos).length = pos := by simp [h]
  rw [List.drop_append_of_le_length (by omega)]
  have : List.drop pos (List.take pos buf) = [] := by
    apply List.drop_eq_nil_of_le
    omega
  rw [this, List.nil_append, List.take_append_of_le_length (Nat.le_refl _), List.take_length]

theorem read_field_append_right (a b : List Nat) (pos width : Nat) :
    read_field (a ++ b) (a.length + pos) width = read_field b pos width := by
  simp [read_field, List.drop_append]

theorem read_field_append_left (a b : List Nat) (pos width : Nat)
    (h : pos + width ≤ a.length) :
    read_field (a ++ b) pos width = read_field a pos width := by
  simp only [read_field]
  rw [List.drop_append_of_le_length (by omega), List.take_append_of_le_length]
  simp only [List.length_drop]
  omega

/-! ## Sequences of requests -/

theorem emitted_size_append (a b : List Request) :
    emitted_size (a ++ b) = emitted_size a + emitted_size b := by
  induction a with
  | nil => simp [emitted_size]
  | cons x xs ih =>
    cases x <;> simp only [List.cons_append, emitted_size, List.append_eq, ih]
    omega

theorem defined_names_append (a b : List Request) :
    defined_names (a ++ b) = defined_names a ++ defined_names b := by
  induction a with
  | nil => simp [defined_names]
  | cons x xs ih => cases x <;> simp [defined_names, ih]

theorem symbols_of_append (a b : List Request) :
    symbols_of (a ++ b) = symbols_of b ++ symbols_of a := by
  induction a with
  | nil => simp [symbols_of]
  | cons x xs ih => cases x <;> simp [symbols_of, ih]

theorem image_append (enc : Nat → Int → List Nat) (symbols : List (String × Nat))
    (a b : List Request) :
    ∀ start, image enc symbols start (a ++ b) =
      image enc symbols start a ++ image enc symbols (start + emitted_size a) b := by
  induction a with
  | nil => intro start; simp [image, emitted_size]
  | cons x xs ih =>
    intro start
    cases x with
    | emit_instruction inst =>
      simp only [List.cons_append, image, emitted_size, List.append_eq, ih, List.append_assoc,
        Nat.add_assoc]
    | define_symbol name offset =>
      simp only [List.cons_append, image, emitted_size, List.append_eq, ih]

theorem pending_append (symbols : List (String × Nat)) (a b : List Request) :
    ∀ start, pending symbols start (a ++ b) =
      pending symbols start a ++ pending symbols (start + emitted_size a) b := by
  induction a with
  | nil => intro start; simp [pending, emitted_size]
  | cons x xs ih =>
    intro start
    cases x with
    | emit_instruction inst =>
      simp only [List.cons_append, pending, emitted_size, List.append_eq, ih, List.append_assoc,
        Nat.add_assoc]
    | define_symbol name offset =>
      simp only [List.cons_append, pending, emitted_size, List.append_eq, ih]

theorem lookup_symbol_append (a b : List (String × Nat)) (name : String) :
    lookup_symbol (a ++ b) name =
      match lookup_symbol a name with
      | some off => some off
      | none => lookup_symbol b name := by
  induction a with
  | nil => simp [lookup_symbol]
  | cons x xs ih =>
    obtain ⟨n, off⟩ := x
    by_cases h : n = name
    · simp [lookup_symbol, h]
    · simp [lookup_symbol, h, ih]

/-- A name has no offset recorded exactly when no request has defined it. -/
theorem lookup_symbols_of_eq_none (reqs : List Request) (name : String) :
    lookup_symbol (symbols_of reqs) name = none ↔ name ∉ defined_names reqs := by
  induction reqs with
  | nil => simp [symbols_of, defined_names, lookup_symbol]
  | cons x xs ih =>
    cases x with
    | emit_instruction inst => simpa [symbols_of, defined_names] using ih
    | define_symbol n off =>
      simp only [symbols_of, defined_names, lookup_symbol_append, List.mem_cons, not_or]
      cases hl : lookup_symbol (symbols_of xs) name with
      | some o =>
        have : ¬ (name ∉ defined_names xs) := fun hc => by simp [ih.mpr hc] at hl
        simp [this]
      | none =>
        have hx := ih.mp hl
        by_cases hn : n = name
        · simp [lookup_symbol, hn]
        · simp [lookup_symbol, hn, hx, Ne.symm hn]

/-- When no name is defined twice, the offset recorded for a name is the one of
its definition. -/
theorem lookup_symbols_of_eq_some (reqs : List Request) (name : String) (offset : Nat)
    (hnodup : (defined_names reqs).Nodup)
    (hmem : Request.define_symbol name offset ∈ reqs) :
    lookup_symbol (symbols_of reqs) name = some offset := by
  induction reqs with
  | nil => simp at hmem
  | cons x xs ih =>
    cases x with
    | emit_instruction inst =>
      simp only [defined_names] at hnodup
      simp only [List.mem_cons] at hmem
      rcases hmem with h | h
      · cases h
      · simpa [symbols_of] using ih hnodup h
    | define_symbol n off =>
      simp only [defined_names, List.nodup_cons] at hnodup
      simp only [symbols_of, lookup_symbol_append]
      simp only [List.mem_cons, Request.define_symbol.injEq] at hmem
      rcases hmem with ⟨h1, h2⟩ | h
      · subst h1 h2
        rw [(lookup_symbols_of_eq_none xs name).mpr hnodup.1]
        simp [lookup_symbol]
      · rw [ih hnodup.2 h]

/-! ## The stream in closed form -/

theorem length_inst_image (enc : Nat → Int → List Nat) (symbols : List (String × Nat))
    (inst_offset : Nat) (inst : si_inst_t) (hwf : inst.well_formed) :
    (inst_image enc symbols inst_offset inst).length = inst.bytes.length := by
  cases hr : inst.reference with
  | none => simp only [inst_image, hr]
  | some r =>
    cases hl : lookup_symbol symbols r.symbol with
    | none => simp only [inst_image, hr, hl]
    | some off =>
      simp only [inst_image, hr, hl]
      apply length_write_bytes
      rw [length_field_bytes]
      exact hwf r hr

theorem length_image (enc : Nat → Int → List Nat) (symbols : List (String × Nat))
    (reqs : List Request) (hwf : well_formed_requests reqs) :
    ∀ start, (image enc symbols start reqs).length = emitted_size reqs := by
  induction reqs with
  | nil => intro start; rfl
  | cons x xs ih =>
    intro start
    have hxs : well_formed_requests xs := fun inst h => hwf inst (List.mem_cons_of_mem _ h)
    cases x with
    | emit_instruction inst =>
      simp only [image, emitted_size, List.length_append, ih hxs,
        length_inst_image enc symbols start inst (hwf inst (List.mem_cons_self _ _))]
    | define_symbol name offset =>
      simp only [image, emitted_size, ih hxs]

/-- Resolving tasks one after the other changes the output only. -/
theorem foldl_resolve_task (enc : Nat → Int → List Nat) (offset : Nat)
    (tasks : List si_task_t) :
    ∀ stream : si_stream_t,
      tasks.foldl (fun s t => si_stream_resolve_task enc s t offset) stream =
        { stream with
          out_file := tasks.foldl (fun b t => patch_task enc b t offset) stream.out_file } := by
  induction tasks with
  | nil => intro stream; rfl
  | cons t ts ih =>
    intro stream
    rw [List.foldl_cons, ih]
    rfl

/-- The tasks left pending by a definition are those of the other names. -/
theorem pending_define (symbols : List (String × Nat)) (name : String) (offset : Nat)
    (reqs : List Request) :
    ∀ start, (pending symbols start reqs).filter (fun t => !decide (t.symbol = name)) =
      pending ((name, offset) :: symbols) start reqs := by
  induction reqs with
  | nil => intro start; rfl
  | cons x xs ih =>
    intro start
    cases x with
    | define_symbol n off => simpa only [pending] using ih start
    | emit_instruction inst =>
      simp only [pending, List.filter_append, ih]
      congr 1
      unfold inst_pending
      cases inst.reference with
      | none => rfl
      | some r =>
        by_cases hn : name = r.symbol
        · cases hl : lookup_symbol symbols r.symbol <;>
            simp [lookup_symbol, hn, hl, task_of]
        · have hn1 : ¬ r.symbol = name := fun h => hn h.symm
          cases hl : lookup_symbol symbols r.symbol <;>
            simp [lookup_symbol, hn, hn1, hl, task_of]

/-- Resolving the pending tasks of a name that becomes known turns the output
into the output in which the references to this name are patched. -/
theorem image_define (enc : Nat → Int → List Nat) (symbols : List (String × Nat))
    (name : String) (offset : Nat) (hnew : lookup_symbol symbols name = none)
    (reqs : List Request) (hwf : well_formed_requests reqs) :
    ∀ front : List Nat,
      ((pending symbols front.length reqs).filter (fun t => decide (t.symbol = name))).foldl
          (fun b t => patch_task enc b t offset) (front ++ image enc symbols front.length reqs) =
        front ++ image enc ((name, offset) :: symbols) front.length reqs := by
  induction reqs with
  | nil => intro front; rfl
  | cons x xs ih =>
    intro front
    have hxs : well_formed_requests xs := fun inst h => hwf inst (List.mem_cons_of_mem _ h)
    cases x with
    | define_symbol n off => simpa only [pending, image] using ih hxs front
    | emit_instruction inst =>
      have hinst := hwf inst (List.mem_cons_self _ _)
      have hlen := length_inst_image enc ((name, offset) :: symbols) front.length inst hinst
      have ih1 := ih hxs (front ++ inst_image enc ((name, offset) :: symbols) front.length inst)
      simp only [List.length_append, hlen, List.append_assoc] at ih1
      simp only [pending, image, List.filter_append, List.foldl_append]
      rw [← ih1]
      congr 1
      unfold inst_pending inst_image
      cases hr : inst.reference with
      | none => rfl
      | some r =>
        by_cases hn : name = r.symbol
        · subst hn
          simp only [hnew, lookup_symbol, if_true]
          simp only [task_of, decide_True, List.filter_cons_of_pos, List.filter_nil,
            List.foldl_cons, List.foldl_nil, patch_task]
          rw [write_bytes_append_right, write_bytes_append_left]
          rw [length_field_bytes]
          exact hinst r hr
        · have hn1 : ¬ r.symbol = name := fun h => hn h.symm
          cases hl : lookup_symbol symbols r.symbol <;>
            simp [lookup_symbol, hn, hn1, hl, task_of]

/-- An instruction added to the stream in closed form. -/
theorem add_inst_after (enc : Nat → Int → List Nat) (done : List Request) (inst : si_inst_t)
    (hwf : well_formed_requests done) :
    si_stream_add_inst enc (stream_after enc done) inst =
      stream_after enc (done ++ [.emit_instruction inst]) := by
  have hlen := length_image enc (symbols_of done) done hwf 0
  have hsym : symbols_of (done ++ [Request.emit_instruction inst]) = symbols_of done := by
    simp [symbols_of_append, symbols_of]
  simp only [stream_after, si_stream_add_inst, hsym, image_append, pending_append,
    emitted_size_append, emitted_size, image, pending, Nat.zero_add, Nat.add_zero,
    List.append_nil]
  cases hr : inst.reference with
  | none => simp [inst_image, inst_pending, hr]
  | some r =>
    cases hl : lookup_symbol (symbols_of done) r.symbol with
    | none => simp [inst_image, inst_pending, hr, hl]
    | some off =>
      simp only [inst_image, inst_pending, hr, hl, si_stream_resolve_task, patch_task, task_of,
        List.append_nil]
      rw [← hlen, write_bytes_append_right]

/-- A definition of a new name served by the stream in closed form. -/
theorem define_symbol_after (enc : Nat → Int → List Nat) (done : List Request)
    (name : String) (offset : Nat) (hwf : well_formed_requests done)
    (hnew : name ∉ defined_names done) :
    define_symbol enc (stream_after enc done) name offset =
      .ok (stream_after enc (done ++ [.define_symbol name offset])) := by
  have hl := (lookup_symbols_of_eq_none done name).mpr hnew
  have hsym : symbols_of (done ++ [Request.define_symbol name offset]) =
      (name, offset) :: symbols_of done := by
    simp [symbols_of_append, symbols_of]
  have himg := image_define enc (symbols_of done) name offset hl done hwf []
  simp only [List.length_nil, List.nil_append] at himg
  have hpend := pending_define (symbols_of done) name offset done 0
  simp only [define_symbol, stream_after, hl, foldl_resolve_task, himg, hpend, hsym,
    image_append, pending_append, emitted_size_append, emitted_size, image, pending,
    Nat.add_zero, List.append_nil]

/-- The stream after requests that are well formed and define no name twice. -/
theorem run_after (enc : Nat → Int → List Nat) (rest : List Request) :
    ∀ done : List Request, well_formed_requests (done ++ rest) →
      (defined_names (done ++ rest)).Nodup →
      si_stream_run enc rest (stream_after enc done) = .ok (stream_after enc (done ++ rest)) := by
  induction rest with
  | nil => intro done _ _; simp [si_stream_run]
  | cons x xs ih =>
    intro done hwf hnodup
    have hdone : well_formed_requests done := fun inst h => hwf inst (by simp [h])
    have hnext : done ++ x :: xs = (done ++ [x]) ++ xs := by simp
    rw [hnext] at hwf hnodup ⊢
    cases x with
    | emit_instruction inst =>
      simp only [si_stream_run, si_stream_request, add_inst_after enc done inst hdone]
      exact ih _ hwf hnodup
    | define_symbol name offset =>
      have hnew : name ∉ defined_names done := by
        have h1 : (defined_names (done ++ [Request.define_symbol name offset])).Nodup := by
          rw [defined_names_append] at hnodup
          exact (List.nodup_append.mp hnodup).1
        rw [defined_names_append] at h1
        simp only [defined_names] at h1
        intro hmem
        exact (List.nodup_append.mp h1).2.2 hmem (List.mem_singleton_self _)
      simp only [si_stream_run, si_stream_request,
        define_symbol_after enc done name offset hdone hnew]
      exact ih _ hwf hnodup

/-- No task is pending when every referenced symbol is known. -/
theorem pending_eq_nil (symbols : List (String × Nat)) (reqs : List Request)
    (h : ∀ inst r, Request.emit_instruction inst ∈ reqs → inst.reference = some r →
      lookup_symbol symbols r.symbol ≠ none) :
    ∀ start, pending symbols start reqs = [] := by
  induction reqs with
  | nil => intro start; rfl
  | cons x xs ih =>
    intro start
    have hxs := ih (fun inst r hm hr => h inst r (List.mem_cons_of_mem _ hm) hr)
    cases x with
    | define_symbol n off => simpa only [pending] using hxs start
    | emit_instruction inst =>
      simp only [pending, hxs, List.append_nil]
      unfold inst_pending
      cases hr : inst.reference with
      | none => rfl
      | some r =>
        have := h inst r (List.mem_cons_self _ _) hr
        cases hl : lookup_symbol symbols r.symbol with
        | none => exact absurd hl this
        | some off => simp only [hl]

/-! ## Finalizing a stream -/

/-- C9 (amended): for every sequence of `emit_instruction`/`define_symbol`
requests on a freshly opened stream in which the field of each reference lies
inside its instruction, every referenced symbol is defined by a request of the
sequence, and no symbol is defined twice, the requests are served and
`finalize` succeeds; in the buffer it returns, the field of every reference
holds the offset of its symbol (absolute mode) or that offset minus the offset
of the referencing instruction (relative mode), whether the definition comes
before or after the reference. -/
theorem finalize_patches_every_reference (enc : Nat → Int → List Nat) (reqs : List Request)
    (hwf : well_formed_requests reqs) (hdef : references_defined reqs)
    (hnodup : (defined_names reqs).Nodup) :
    ∃ buf, assemble enc reqs = .ok buf ∧ buf.length = emitted_size reqs ∧
      ∀ before inst after r symbol_offset,
        reqs = before ++ Request.emit_instruction inst :: after →
        inst.reference = some r →
        Request.define_symbol r.symbol symbol_offset ∈ reqs →
        read_field buf (emitted_size before + r.field_pos) r.field_width =
          field_bytes enc r.field_width
            (patch_value r.mode symbol_offset (emitted_size before)) := by
  have hrun := run_after enc reqs [] (by simpa using hwf) (by simpa using hnodup)
  have hcreate : stream_after enc [] = si_stream_create := rfl
  rw [hcreate, List.nil_append] at hrun
  have hpend : pending (symbols_of reqs) 0 reqs = [] := by
    apply pending_eq_nil
    intro inst r hm hr hnone
    exact (lookup_symbols_of_eq_none reqs r.symbol).mp hnone (hdef inst r hm hr)
  refine ⟨image enc (symbols_of reqs) 0 reqs, ?_, length_image enc _ reqs hwf 0, ?_⟩
  · simp only [assemble, hrun, si_stream_close, stream_after, hpend]
  · intro before inst after r symbol_offset hsplit hr hmem
    have hl := lookup_symbols_of_eq_some reqs r.symbol symbol_offset hnodup hmem
    have hbefore : well_formed_requests before := fun i h => hwf i (by simp [hsplit, h])
    have hinst : inst.well_formed := hwf inst (by simp [hsplit])
    have hlen := length_image enc (symbols_of reqs) before hbefore 0
    have hlen2 := length_inst_image enc (symbols_of reqs) (emitted_size before) inst hinst
    have himg : ∀ syms, image enc syms 0 reqs =
        image enc syms 0 before ++
          (inst_image enc syms (emitted_size before) inst ++
            image enc syms (emitted_size before + inst.bytes.length) after) := by
      intro syms
      rw [hsplit, image_append]
      simp only [image, Nat.zero_add]
    have hpos : emitted_size before + r.field_pos =
        (image enc (symbols_of reqs) 0 before).length + r.field_pos := by rw [hlen]
    rw [himg, hpos, read_field_append_right, read_field_append_left _ _ _ _
      (by rw [hlen2]; exact hinst r hr)]
    simp only [inst_image, hr, hl]
    have hw := read_field_write_bytes inst.bytes r.field_pos
      (field_bytes enc r.field_width (patch_value r.mode symbol_offset (emitted_size before)))
      (by have := hinst r hr; omega)
    rw [length_field_bytes] at hw
    exact hw

/-- C9 (witness): instruction A at offset 0 (4 bytes) references label L in
relative mode, L is defined at offset 4, where instruction B follows: the field
of A is patched with 4. -/
theorem finalize_patches_every_reference_witness :
    well_formed_requests unit_forward_reference ∧
    references_defined unit_forward_reference ∧
    (defined_names unit_forward_reference).Nodup ∧
    assemble little_endian unit_forward_reference =
      .ok [4, 0, 0, 0, 0xBB, 0xBB, 0xBB, 0xBB] ∧
    ∃ buf, assemble little_endian unit_forward_reference = .ok buf ∧
      buf.length = emitted_size unit_forward_reference ∧
      ∀ before inst after r symbol_offset,
        unit_forward_reference = before ++ Request.emit_instruction inst :: after →
        inst.reference = some r →
        Request.define_symbol r.symbol symbol_offset ∈ unit_forward_reference →
        read_field buf (emitted_size before + r.field_pos) r.field_width =
          field_bytes little_endian r.field_width
            (patch_value r.mode symbol_offset (emitted_size before)) :=
  ⟨by decide, by decide, by decide, by rfl,
    finalize_patches_every_reference little_endian unit_forward_reference
      (by decide) (by decide) (by decide)⟩

/-- C9 (counterexample): every referenced symbol is defined before `finalize`,
but the label L is defined a second time: the second definition fails with
`DuplicateSymbolError`, and the unit is not finalized. -/
theorem finalize_patches_every_reference_counterexample :
    well_formed_requests unit_duplicate_definition ∧
    references_defined unit_duplicate_definition ∧
    assemble little_endian unit_duplicate_definition =
      .error (.DuplicateSymbolError "L") ∧
    ¬ ∃ buf, assemble little_endian unit_duplicate_definition = .ok buf := by
  have h : assemble little_endian unit_duplicate_definition =
      .error (.DuplicateSymbolError "L") := by rfl
  refine ⟨by decide, by decide, h, ?_⟩
  rintro ⟨buf, hbuf⟩
  rw [h] at hbuf
  cases hbuf

/-! ## The offset of a stream -/

theorem emitted_size_eq_sum (reqs : List Request) :
    emitted_size reqs = (instruction_sizes reqs).sum := by
  induction reqs with
  | nil => rfl
  | cons x xs ih => cases x <;> simp [emitted_size, instruction_sizes, ih]

theorem resolve_task_offset (enc : Nat → Int → List Nat) (stream : si_stream_t)
    (task : si_task_t) (symbol_offset : Nat) :
    (si_stream_resolve_task enc stream task symbol_offset).offset = stream.offset ∧
    (si_stream_resolve_task enc stream task symbol_offset).symbols = stream.symbols := by
  simp [si_stream_resolve_task]

theorem add_inst_offset (enc : Nat → Int → List Nat) (stream : si_stream_t)
    (inst : si_inst_t) :
    (si_stream_add_inst enc stream inst).offset = stream.offset + inst.bytes.length ∧
    (si_stream_add_inst enc stream inst).symbols = stream.symbols := by
  cases hr : inst.reference with
  | none => simp [si_stream_add_inst, hr]
  | some r =>
    cases hl : lookup_symbol stream.symbols r.symbol with
    | none => simp [si_stream_add_inst, hr, hl]
    | some off => simp [si_stream_add_inst, hr, hl, si_stream_resolve_task]

theorem define_symbol_ok (enc : Nat → Int → List Nat) (stream : si_stream_t)
    (name : String) (offset : Nat) (hnew : lookup_symbol stream.symbols name = none) :
    ∃ next, define_symbol enc stream name offset = .ok next ∧
      next.offset = stream.offset ∧ next.symbols = (name, offset) :: stream.symbols := by
  simp only [define_symbol, hnew, foldl_resolve_task]
  exact ⟨_, rfl, rfl, rfl⟩

theorem define_symbol_offset (enc : Nat → Int → List Nat) (stream next : si_stream_t)
    (name : String) (offset : Nat) (h : define_symbol enc stream name offset = .ok next) :
    next.offset = stream.offset := by
  cases hl : lookup_symbol stream.symbols name with
  | some off => simp [define_symbol, hl] at h
  | none =>
    obtain ⟨n2, h2, h3, _⟩ := define_symbol_ok enc stream name offset hl
    rw [h2] at h
    cases h
    exact h3

/-- Requests that are served advance the offset by the sizes of the instructions. -/
theorem run_offset (enc : Nat → Int → List Nat) (reqs : List Request) :
    ∀ stream last, si_stream_run enc reqs stream = .ok last →
      last.offset = stream.offset + emitted_size reqs := by
  induction reqs with
  | nil =>
    intro stream last h
    simp only [si_stream_run, Except.ok.injEq] at h
    simp [← h, emitted_size]
  | cons x xs ih =>
    intro stream last h
    cases x with
    | emit_instruction inst =>
      simp only [si_stream_run, si_stream_request] at h
      rw [ih _ _ h, (add_inst_offset enc stream inst).1, emitted_size]
      omega
    | define_symbol name offset =>
      simp only [si_stream_run, si_stream_request] at h
      cases hd : define_symbol enc stream name offset with
      | error e => simp [hd] at h
      | ok next =>
        simp only [hd] at h
        rw [ih _ _ h, define_symbol_offset enc stream next name offset hd, emitted_size]

/-- Requests that define no name twice, and no name known to the stream, are all
served. -/
theorem run_exists (enc : Nat → Int → List Nat) (reqs : List Request) :
    ∀ stream, (defined_names reqs).Nodup →
      (∀ n ∈ defined_names reqs, lookup_symbol stream.symbols n = none) →
      ∃ last, si_stream_run enc reqs stream = .ok last := by
  induction reqs with
  | nil => intro stream _ _; exact ⟨stream, rfl⟩
  | cons x xs ih =>
    intro stream hnodup hnew
    cases x with
    | emit_instruction inst =>
      simp only [si_stream_run, si_stream_request]
      apply ih _ hnodup
      intro n hn
      rw [(add_inst_offset enc stream inst).2]
      exact hnew n hn
    | define_symbol name offset =>
      simp only [defined_names, List.nodup_cons] at hnodup
      obtain ⟨next, h1, _, h3⟩ := define_symbol_ok enc stream name offset
        (hnew name (by simp [defined_names]))
      simp only [si_stream_run, si_stream_request, h1]
      apply ih _ hnodup.2
      intro n hn
      have hne : ¬ name = n := fun h => hnodup.1 (h ▸ hn)
      rw [h3]
      simp only [lookup_symbol, hne, if_false]
      exact hnew n (by simp [defined_names, hn])

theorem run_append (enc : Nat → Int → List Nat) (a b : List Request) :
    ∀ stream, si_stream_run enc (a ++ b) stream =
      match si_stream_run enc a stream with
      | .error e => .error e
      | .ok next => si_stream_run enc b next := by
  induction a with
  | nil => intro stream; rfl
  | cons x xs ih =>
    intro stream
    simp only [List.cons_append, si_stream_run]
    cases si_stream_request enc stream x with
    | error e => rfl
    | ok next => exact ih next

/-- C10: for every sequence of requests on a freshly created stream (offset 0)
that defines no symbol twice, whatever mix of instructions without reference,
with a reference resolved at once and with a deferred reference it holds, the
requests are served and `si_stream_get_offset` then returns the sum of the sizes
of the instructions; after every initial part of the sequence the offset is the
sum of the sizes so far, which is at most the final offset (the offset never
decreases); and resolving a task does not change the offset. -/
theorem si_stream_get_offset_is_sum (enc : Nat → Int → List Nat) (reqs : List Request)
    (hnodup : (defined_names reqs).Nodup) :
    ∃ last, si_stream_run enc reqs si_stream_create = .ok last ∧
      si_stream_get_offset last = (instruction_sizes reqs).sum ∧
      (∀ r1 r2, reqs = r1 ++ r2 →
        ∃ s1, si_stream_run enc r1 si_stream_create = .ok s1 ∧
          si_stream_get_offset s1 = (instruction_sizes r1).sum ∧
          si_stream_get_offset s1 ≤ si_stream_get_offset last) ∧
      (∀ stream task symbol_offset,
        si_stream_get_offset (si_stream_resolve_task enc stream task symbol_offset) =
          si_stream_get_offset stream) := by
  obtain ⟨last, hlast⟩ := run_exists enc reqs si_stream_create hnodup
    (fun n _ => by simp [si_stream_create, lookup_symbol])
  have hoff := run_offset enc reqs _ _ hlast
  simp only [si_stream_create, Nat.zero_add] at hoff
  refine ⟨last, hlast, by rw [si_stream_get_offset, hoff, emitted_size_eq_sum], ?_, ?_⟩
  · intro r1 r2 hsplit
    have hrun := hlast
    rw [hsplit, run_append] at hrun
    cases h1 : si_stream_run enc r1 si_stream_create with
    | error e => simp [h1] at hrun
    | ok s1 =>
      have hoff1 := run_offset enc r1 _ _ h1
      simp only [si_stream_create, Nat.zero_add] at hoff1
      refine ⟨s1, rfl, by rw [si_stream_get_offset, hoff1, emitted_size_eq_sum], ?_⟩
      rw [si_stream_get_offset, si_stream_get_offset, hoff, hoff1, hsplit, emitted_size_append]
      omega
  · intro stream task symbol_offset
    exact (resolve_task_offset enc stream task symbol_offset).1

/-- C10 (witness): a deferred reference, a definition, an instruction without
reference and a reference resolved at once: the offset is 4 + 4 + 2. -/
theorem si_stream_get_offset_is_sum_witness :
    (defined_names unit_mixed).Nodup ∧
    (instruction_sizes unit_mixed).sum = 10 ∧
    ∃ last, si_stream_run little_endian unit_mixed si_stream_create = .ok last ∧
      si_stream_get_offset last = (instruction_sizes unit_mixed).sum ∧
      (∀ r1 r2, unit_mixed = r1 ++ r2 →
        ∃ s1, si_stream_run little_endian r1 si_stream_create = .ok s1 ∧
          si_stream_get_offset s1 = (instruction_sizes r1).sum ∧
          si_stream_get_offset s1 ≤ si_stream_get_offset last) ∧
      (∀ stream task symbol_offset,
        si_stream_get_offset (si_stream_resolve_task little_endian stream task symbol_offset) =
          si_stream_get_offset stream) :=
  ⟨by decide, by decide, si_stream_get_offset_is_sum little_endian unit_mixed (by decide)⟩

end M2C
